import Mathlib

/-!
# Magma block cipher and counter keystream mode (crypto1.go)

A shallow embedding of `crypto1.go`.  Bytes (`byte`), 32-bit words (`uint32`)
and 64-bit words (`uint64`) are natural numbers; every place where the Go
arithmetic wraps is written with an explicit `% 2^w`.  Slices and arrays are
lists.  A Go `panic` is `none`; a returned `error` is `Except.error`.
-/

namespace Magma

/-! ## Constants -/

def BlockSize : Nat := 8
def KeySize : Nat := 32
def RoundCount : Nat := 32
def SubkeyCount : Nat := 8

/-- The substitution table `sBox`, eight rows of sixteen entries. -/
def sBox : List (List Nat) :=
  [[4, 10, 9, 2, 13, 8, 0, 14, 6, 11, 1, 12, 7, 15, 5, 3],
   [14, 11, 4, 12, 6, 13, 15, 10, 2, 3, 8, 1, 0, 7, 5, 9],
   [5, 8, 1, 13, 10, 3, 4, 2, 14, 15, 12, 7, 6, 0, 9, 11],
   [7, 13, 10, 1, 0, 8, 9, 15, 14, 4, 6, 12, 11, 2, 5, 3],
   [6, 12, 7, 1, 5, 15, 13, 8, 4, 10, 9, 14, 0, 3, 11, 2],
   [4, 11, 10, 0, 7, 2, 1, 13, 3, 6, 8, 5, 9, 12, 15, 14],
   [13, 11, 4, 1, 3, 15, 5, 9, 0, 10, 14, 7, 6, 8, 2, 12],
   [1, 15, 13, 0, 5, 7, 10, 4, 9, 2, 3, 14, 6, 11, 8, 12]]

/-- The table lookup `sBox[i][j]`. -/
def sBoxAt (i j : Nat) : Nat := (sBox.getD i []).getD j 0

/-! ## encoding/binary, little endian

The library functions are modelled by their documented behaviour: the value of
the first `w/8` bytes read least significant byte first. -/

/-- The function `binary.LittleEndian.Uint32` on a slice of at least four bytes.  Every
call in `crypto1.go` passes at least four bytes: `EncryptBlock` after its length guards,
`expandKey` on a key that `NewMagmaCore` has checked to be 32 bytes long. -/
def Uint32 (b : List Nat) : Nat :=
  b.getD 0 0 + b.getD 1 0 * 2 ^ 8 + b.getD 2 0 * 2 ^ 16 + b.getD 3 0 * 2 ^ 24

/-- The four bytes that `binary.LittleEndian.PutUint32` stores for `v`. -/
def bytes32 (v : Nat) : List Nat :=
  [v % 256, v / 2 ^ 8 % 256, v / 2 ^ 16 % 256, v / 2 ^ 24 % 256]

/-- The function `binary.LittleEndian.PutUint32(b, v)`: the first four bytes of `b` are
overwritten, the rest of `b` is kept. -/
def PutUint32 (b : List Nat) (v : Nat) : List Nat :=
  bytes32 v ++ b.drop 4

/-- The function `binary.LittleEndian.Uint64` on a slice of at least eight bytes. -/
def Uint64 (b : List Nat) : Nat :=
  b.getD 0 0 + b.getD 1 0 * 2 ^ 8 + b.getD 2 0 * 2 ^ 16 + b.getD 3 0 * 2 ^ 24
    + b.getD 4 0 * 2 ^ 32 + b.getD 5 0 * 2 ^ 40 + b.getD 6 0 * 2 ^ 48 + b.getD 7 0 * 2 ^ 56

/-- The eight bytes that `binary.LittleEndian.PutUint64` stores for `v`. -/
def bytes64 (v : Nat) : List Nat :=
  [v % 256, v / 2 ^ 8 % 256, v / 2 ^ 16 % 256, v / 2 ^ 24 % 256,
   v / 2 ^ 32 % 256, v / 2 ^ 40 % 256, v / 2 ^ 48 % 256, v / 2 ^ 56 % 256]

/-- The function `binary.LittleEndian.PutUint64(b, v)`: the first eight bytes of `b` are
overwritten, the rest of `b` is kept. -/
def PutUint64 (b : List Nat) (v : Nat) : List Nat :=
  bytes64 v ++ b.drop 8

/-! ## MagmaCore -/

/-- The struct `MagmaCore`: the array `subkeys [32]uint32`. -/
structure MagmaCore where
  subkeys : List Nat
  deriving DecidableEq, Repr

/-- The method `expandKey`: three loops filling `subkeys`, starting from the zero value of
the array.  The slice `key[i*4 : (i+1)*4]` is `(key.drop (i*4)).take 4`.  Its only caller
is `NewMagmaCore`, with a 32-byte key. -/
def expandKey (m : MagmaCore) (key : List Nat) : MagmaCore :=
  let s1 := (List.range 8).foldl
    (fun s i => s.set i (Uint32 ((key.drop (i * 4)).take 4))) m.subkeys
  let s2 := (List.range' 8 16).foldl (fun s i => s.set i (s.getD (i % 8) 0)) s1
  let s3 := (List.range' 24 8).foldl (fun s i => s.set i (s.getD (7 - i % 8) 0)) s2
  { subkeys := s3 }

/-- The constructor `NewMagmaCore`. -/
def NewMagmaCore (key : List Nat) : Except String MagmaCore :=
  if key.length ≠ KeySize then
    Except.error "invalid key length"
  else
    Except.ok (expandKey { subkeys := List.replicate 32 0 } key)

/-- The round function `f`. -/
def f (block key : Nat) : Nat :=
  let value := (block + key) % 2 ^ 32
  let value32 := value % 2 ^ 32
  let result := (List.range 8).foldl
    (fun result i =>
      let sboxIndex := (value32 >>> (4 * i)) &&& 0x0F
      let sboxValue := sBoxAt i sboxIndex
      result ||| ((sboxValue % 2 ^ 32) <<< (4 * i)) % 2 ^ 32) 0
  ((result <<< 11) % 2 ^ 32) ||| (result >>> (32 - 11))

/-- The round loop of `EncryptBlock`: `RoundCount` iterations on `(left, right)`. -/
def feistel (m : MagmaCore) (left right : Nat) : Nat × Nat :=
  (List.range RoundCount).foldl
    (fun lr i =>
      let roundKey := m.subkeys.getD i 0
      let newRight := lr.1 ^^^ f lr.2 roundKey
      (lr.2, newRight)) (left, right)

/-- The method `EncryptBlock(dst, src)`; the result is the destination after the call,
`none` when the call panics. -/
def EncryptBlock (m : MagmaCore) (dst src : List Nat) : Option (List Nat) :=
  if src.length < BlockSize then none
  else if dst.length < BlockSize then none
  else
    let left := Uint32 (src.take 4)
    let right := Uint32 (src.drop 4)
    let lr := feistel m left right
    let dst1 := PutUint32 (dst.take 4) lr.2 ++ dst.drop 4
    let dst2 := dst1.take 4 ++ PutUint32 (dst1.drop 4) lr.1
    some dst2

/-! ## MGM -/

/-- The struct `MGM`. -/
structure MGM where
  E : MagmaCore
  H : Nat
  nonce : List Nat
  buffer : List Nat
  deriving DecidableEq, Repr

/-- The builtin `copy(dst, src)`: the first `min (len dst) (len src)` bytes of `dst` are
overwritten with those of `src`. -/
def copy (dst src : List Nat) : List Nat :=
  src.take dst.length ++ dst.drop src.length

/-- The constructor `NewMGM`; `none` when the call panics, otherwise the returned error or
processor. -/
def NewMGM (key nonce : List Nat) : Option (Except String MGM) :=
  if nonce.length ≠ BlockSize then
    some (Except.error "nonce must be 8 bytes")
  else
    match NewMagmaCore key with
    | Except.error err => some (Except.error err)
    | Except.ok core =>
      let mgm : MGM :=
        { E := core, H := 0, nonce := List.replicate BlockSize 0,
          buffer := List.replicate BlockSize 0 }
      let mgm := { mgm with nonce := copy mgm.nonce nonce }
      let zero := List.replicate BlockSize 0
      match EncryptBlock mgm.E mgm.buffer zero with
      | none => none
      | some buffer =>
        let mgm := { mgm with buffer := buffer }
        some (Except.ok { mgm with H := Uint64 mgm.buffer })

/-- The method `incCounter`; `none` when the slice `nonce` is shorter than eight bytes
(the bounds check of `Uint64` and `PutUint64`). -/
def incCounter (m : MGM) : Option MGM :=
  if m.nonce.length < 8 then none
  else
    let counter := Uint64 m.nonce
    let counter := (counter + 1) % 2 ^ 64
    some { m with nonce := PutUint64 m.nonce counter }

/-- One iteration of the loop of `processBlocks`, at index `i`. -/
def processBlocksStep (src : List Nat) (st : MGM × List Nat) (i : Nat) :
    Option (MGM × List Nat) :=
  let m := st.1
  let dst := st.2
  (if i % BlockSize = 0 then
      (incCounter m).bind fun m1 =>
        (EncryptBlock m1.E m1.buffer m1.nonce).map fun buf => { m1 with buffer := buf }
    else some m).bind fun m2 =>
  if i < dst.length then
    match src[i]?, m2.buffer[i % BlockSize]? with
    | some s, some b => some (m2, dst.set i (s ^^^ b))
    | _, _ => none
  else some (m2, dst)

/-- The method `processBlocks(dst, src)`: the processor and the destination after the
call, `none` when the call panics. -/
def processBlocks (m : MGM) (dst src : List Nat) : Option (MGM × List Nat) :=
  (List.range src.length).foldlM (processBlocksStep src) (m, dst)

/-- The error value that one `inputFile.Read(buf)` returns: `nil`, `io.EOF`, or another
error. -/
inductive ReadErr where
  | nil : ReadErr
  | eof : ReadErr
  | failed : String → ReadErr
  deriving DecidableEq, Repr

/-- The test `err != nil && err != io.EOF`. -/
def ReadErr.isFailure : ReadErr → Bool
  | ReadErr.failed _ => true
  | _ => false

/-- What one call `inputFile.Read(buf)` returns: the `n` bytes it put into `buf` and the
error value. -/
structure ReadResult where
  bytes : List Nat
  err : ReadErr
  deriving DecidableEq, Repr

/-- What the file system answers during one call of `EncryptFile` or `DecryptFile`: the
error of `os.Open` and of `os.Create` if any, the results of the successive calls of
`Read` (after the last listed one `Read` returns 0 bytes and `io.EOF`), and the error of
each successive call of `Write` if any (calls beyond the list succeed). -/
structure FileEnv where
  openErr : Option String
  createErr : Option String
  reads : List ReadResult
  writes : List (Option String)
  deriving DecidableEq, Repr

/-- The errors that `EncryptFile` and `DecryptFile` return, with the message of the
underlying error. -/
inductive FileError where
  | opening : String → FileError
  | creating : String → FileError
  | reading : String → FileError
  | writing : String → FileError
  deriving DecidableEq, Repr

/-- The state at the return of `EncryptFile` or `DecryptFile`: the processor, the bytes
written to the output file by the calls of `Write` that succeeded (what a failing `Write`
leaves in the file is not modelled), and the returned error (`none` for `nil`). -/
structure FileRun where
  mgm : MGM
  written : List Nat
  err : Option FileError
  deriving DecidableEq, Repr

/-- The loop of `EncryptFile` and of `DecryptFile` (the two bodies are the same): each
iteration takes the next result `(n, err)` of `Read`; an error other than `io.EOF` is
returned; `n = 0` leaves the loop; otherwise `buf[:n]` (a panic when `n` exceeds the 4096
bytes of `buf`) is passed to `processBlocks` with a fresh destination of `n` bytes, and
the result is written, a write error being returned.  `none` is a panic. -/
def fileLoop (m : MGM) (written : List Nat) (writes : List (Option String)) :
    List ReadResult → Option FileRun
  | [] => some { mgm := m, written := written, err := none }
  | r :: rest =>
    match r.err with
    | ReadErr.failed e => some { mgm := m, written := written, err := some (FileError.reading e) }
    | _ =>
      if r.bytes.length = 0 then some { mgm := m, written := written, err := none }
      else if 4096 < r.bytes.length then none
      else
        match processBlocks m (List.replicate r.bytes.length 0) r.bytes with
        | none => none
        | some (m1, encrypted) =>
          match writes.head? with
          | some (some e) =>
            some { mgm := m1, written := written, err := some (FileError.writing e) }
          | _ => fileLoop m1 (written ++ encrypted) writes.tail rest

/-- The method `EncryptFile`, run against the answers `fs` of the file system. -/
def EncryptFile (m : MGM) (fs : FileEnv) : Option FileRun :=
  match fs.openErr with
  | some e => some { mgm := m, written := [], err := some (FileError.opening e) }
  | none =>
    match fs.createErr with
    | some e => some { mgm := m, written := [], err := some (FileError.creating e) }
    | none => fileLoop m [] fs.writes fs.reads

/-- The method `DecryptFile`; its body is the body of `EncryptFile`. -/
def DecryptFile (m : MGM) (fs : FileEnv) : Option FileRun :=
  match fs.openErr with
  | some e => some { mgm := m, written := [], err := some (FileError.opening e) }
  | none =>
    match fs.createErr with
    | some e => some { mgm := m, written := [], err := some (FileError.creating e) }
    | none => fileLoop m [] fs.writes fs.reads

/-! ## Wiping secrets (crypto1.go, K3_Wrapper1.go) -/

/-- The function `zeroize`: every index of the slice is set to 0. -/
def zeroize (b : List Nat) : List Nat :=
  (List.range b.length).foldl (fun b i => b.set i 0) b

/-- The function `encryptFileMenu` from the point where the key and nonce buffers have been
obtained (the call of `NewMGM`) to its return.  `fileResult` is what `mgm.EncryptFile`
returns on the file system, `nil` or an error.  The result is the content of the key and
nonce buffers when the function returns, `none` when it panics.  `NewMGM` copies the nonce
and reads the key, so the calls leave both buffers as they are. -/
def encryptFileMenu (key nonce : List Nat) (fileResult : Except String Unit) :
    Option (List Nat × List Nat) :=
  match NewMGM key nonce with
  | none => none
  | some (Except.error _) => some (key, nonce)
  | some (Except.ok _) =>
    match fileResult with
    | Except.error _ => some (key, nonce)
    | Except.ok _ =>
      let key := zeroize key
      let nonce := zeroize nonce
      some (key, nonce)

/-- The function `decryptFileMenu` from the call of `NewMGM` to its return; `fileResult` is
what `mgm.DecryptFile` returns. -/
def decryptFileMenu (key nonce : List Nat) (fileResult : Except String Unit) :
    Option (List Nat × List Nat) :=
  match NewMGM key nonce with
  | none => none
  | some (Except.error _) => some (key, nonce)
  | some (Except.ok _) =>
    match fileResult with
    | Except.error _ => some (key, nonce)
    | Except.ok _ =>
      let key := zeroize key
      let nonce := zeroize nonce
      some (key, nonce)

/-! ## Key diversification (K3_Wrapper2.go)

Go strings are their bytes: `len` counts bytes and `label[:n]` keeps the first `n` bytes.
The constant `KeySize` of this file is 32 as well. -/

def Iterations : Nat := 10000
def SaltSize : Nat := 16
def LabelMaxSize : Nat := 64
def ContextMaxSize : Nat := 64

/-- The type of the imported function `pbkdf2.Key(password, salt, iter, keyLen, sha256.New)`
of `golang.org/x/crypto/pbkdf2`; the function is a parameter of `DeriveKey`. -/
def KeyFunc : Type := List Nat → List Nat → Nat → Nat → List Nat

/-- The function `DeriveKey`.  `randRead` is the outcome of `rand.Read(salt)`: an error, or
the `SaltSize` random bytes.  The result is `none` when the call panics. -/
def DeriveKey (Key : KeyFunc) (randRead : Except String (List Nat))
    (masterKey label context : List Nat) : Option (List Nat) :=
  let label := if label.length > LabelMaxSize then label.take LabelMaxSize else label
  let context :=
    if context.length > ContextMaxSize then context.take ContextMaxSize else context
  -- fmt.Sprintf("%s||%s", label, context)
  let D := label ++ [124, 124] ++ context
  match randRead with
  | Except.error _ => none
  | Except.ok _ =>
    let dk := Key masterKey D Iterations KeySize
    some dk

/-! ## Definitions used to state the properties -/

/-- An 8-byte block: eight values, each a byte. -/
def IsBlock (b : List Nat) : Prop := b.length = 8 ∧ ∀ x ∈ b, x < 256

instance (b : List Nat) : Decidable (IsBlock b) := by
  unfold IsBlock; infer_instance

/-- Nibble `i` of `v` (nibble 0 is the least significant). -/
def nibble (v i : Nat) : Nat := v / 16 ^ i % 16

/-- The substitution `S`: nibble `i` of the argument is replaced by `sBox[i][nibble]`, in
the same position, for the eight nibble positions. -/
def substNibbles (v : Nat) : Nat :=
  ((List.range 8).map fun i => sBoxAt i (nibble v i) * 16 ^ i).sum

/-- Left rotation of a 32-bit word by 11 bits: the low 21 bits move up by 11 places and
the high 11 bits come back in at the bottom. -/
def rotl11 (w : Nat) : Nat := w % 2 ^ 21 * 2 ^ 11 + w / 2 ^ 21 % 2 ^ 11

/-- One Feistel round with round key `k`: `newRight = left XOR f(right, k)`, then
`left, right = right, newRight`. -/
def feistelRound (k : Nat) (lr : Nat × Nat) : Nat × Nat :=
  (lr.2, lr.1 ^^^ f lr.2 k)

/-- The rounds `0, ..., n-1` applied in order, round `i` with `K[i]`. -/
def feistelRounds (K : List Nat) : Nat → Nat × Nat → Nat × Nat
  | 0, lr => lr
  | n + 1, lr => feistelRound (K.getD n 0) (feistelRounds K n lr)

/-- The schedule `K` in reverse order: word `i` is `K[31 - i]`. -/
def reversedSchedule (K : List Nat) : List Nat :=
  (List.range 32).map fun i => K.getD (31 - i) 0

/-- Keystream block `j` for key schedule `E` and starting counter `N`: `EncryptBlock`
applied to the little-endian encoding of `(N + j + 1) mod 2^64`. -/
def keystreamBlock (E : MagmaCore) (N j : Nat) : List Nat :=
  (EncryptBlock E (List.replicate 8 0) (bytes64 ((N + j + 1) % 2 ^ 64))).getD []

/-- The first half of an iteration of `processBlocks`: at a block boundary the counter is
incremented and encrypted into the buffer. -/
def advance (m : MGM) (i : Nat) : Option MGM :=
  if i % BlockSize = 0 then
    (incCounter m).bind fun m1 =>
      (EncryptBlock m1.E m1.buffer m1.nonce).map fun buf => { m1 with buffer := buf }
  else some m

/-- The second half of an iteration of `processBlocks`: the guarded store into `dst`. -/
def store (src : List Nat) (m2 : MGM) (dst : List Nat) (i : Nat) : Option (MGM × List Nat) :=
  if i < dst.length then
    match src[i]?, m2.buffer[i % BlockSize]? with
    | some s, some b => some (m2, dst.set i (s ^^^ b))
    | _, _ => none
  else some (m2, dst)

/-- The processor after `k` iterations of the loop of `processBlocks` started in `m`: the
counter has advanced once per block begun, and the buffer holds the last keystream
block. -/
def stateAfter (m : MGM) (k : Nat) : MGM :=
  if k = 0 then m
  else
    { m with
      nonce := bytes64 ((Uint64 m.nonce + (k + 7) / 8) % 2 ^ 64)
      buffer := keystreamBlock m.E (Uint64 m.nonce) ((k - 1) / 8) }

/-- Keystream byte `i` for key schedule `E` and starting counter `N`. -/
def keystreamByte (E : MagmaCore) (N i : Nat) : Nat :=
  (keystreamBlock E N (i / 8)).getD (i % 8) 0

/-- The destination after `k` iterations of the loop of `processBlocks`: the bytes at the
indices below `k` that exist in `dst` hold source XOR keystream. -/
def outputAfter (E : MagmaCore) (N : Nat) (src dst : List Nat) (k : Nat) : List Nat :=
  (List.range k).foldl (fun d i => d.set i (src.getD i 0 ^^^ keystreamByte E N i)) dst

/-- The processors a caller can hold: the result of a successful `NewMGM` on a nonce of
bytes, and every processor left by a `processBlocks` call on such a processor. -/
inductive Reachable : MGM → Prop
  | new (key nonce : List Nat) (m : MGM) :
      (∀ x ∈ nonce, x < 256) → NewMGM key nonce = some (Except.ok m) → Reachable m
  | step (m : MGM) (dst src : List Nat) (m2 : MGM) (out : List Nat) :
      Reachable m → processBlocks m dst src = some (m2, out) → Reachable m2

/-- The contract of `pbkdf2.Key`: the returned key has `keyLen` bytes. -/
def KeyLength (Key : KeyFunc) : Prop :=
  ∀ password salt iter keyLen, (Key password salt iter keyLen).length = keyLen

/-- A function with the contract `KeyLength` that depends on the password, the salt and the
iteration count; it instantiates statements about every `KeyFunc` and is not PBKDF2. -/
def sampleKey : KeyFunc :=
  fun password salt iter keyLen =>
    (List.range keyLen).map fun i => (password.sum + salt.sum + salt.length + iter + i) % 256

/-- The diversification string `D`: label and context cut to their first 64 bytes, joined
by `"||"` (two bytes 124). -/
def diversification (label context : List Nat) : List Nat :=
  label.take 64 ++ [124, 124] ++ context.take 64

/-- The bytes of `"test_label"`. -/
def testLabel : List Nat := [116, 101, 115, 116, 95, 108, 97, 98, 101, 108]

/-- The bytes of `"test_context"`. -/
def testContext : List Nat := [116, 101, 115, 116, 95, 99, 111, 110, 116, 101, 120, 116]

/-- The bytes that a sequence of reads delivers. -/
def readData (reads : List ReadResult) : List Nat :=
  (reads.map fun r => r.bytes).flatten

/-- Reads that deliver the input in block-aligned pieces: no read fails, every read
returns between 1 and 4096 bytes, and every read but the last returns a multiple of 8
bytes (as every read that fills the 4096-byte buffer does). -/
@[reducible] def AlignedReads (reads : List ReadResult) : Prop :=
  (∀ r ∈ reads, r.err.isFailure = false ∧ 0 < r.bytes.length ∧ r.bytes.length ≤ 4096) ∧
  (∀ r ∈ reads.dropLast, r.bytes.length % 8 = 0)

/-- A run without file errors: `os.Open`, `os.Create` and every `Write` succeed. -/
@[reducible] def NoFileError (fs : FileEnv) : Prop :=
  fs.openErr = none ∧ fs.createErr = none ∧ ∀ w ∈ fs.writes, w = none

/-- The reads of a file whose every `Read` fills the 4096-byte buffer until the content
runs out: chunks of 4096 bytes and a shorter last chunk. -/
def fullReads (p : List Nat) : List ReadResult :=
  if h : (p.take 4096).length = 0 then []
  else { bytes := p.take 4096, err := ReadErr.nil } :: fullReads (p.drop 4096)
termination_by p.length
decreasing_by
  rw [List.length_take] at h
  rw [List.length_drop]
  omega

/-- A file with content `p` that is read by full buffers, with no file error. -/
def regularFile (p : List Nat) : FileEnv :=
  { openErr := none, createErr := none, reads := fullReads p, writes := [] }

/-! ## Little-endian encoding lemmas -/

theorem Uint32_bytes32 (v : Nat) : Uint32 (bytes32 v) = v % 2 ^ 32 := by
  simp only [Uint32, bytes32, List.getD_cons_zero, List.getD_cons_succ]
  omega

theorem Uint64_bytes64 (v : Nat) : Uint64 (bytes64 v) = v % 2 ^ 64 := by
  simp only [Uint64, bytes64, List.getD_cons_zero, List.getD_cons_succ]
  omega

theorem bytes32_Uint32 (a b c d : Nat) (ha : a < 256) (hb : b < 256) (hc : c < 256)
    (hd : d < 256) : bytes32 (Uint32 [a, b, c, d]) = [a, b, c, d] := by
  simp only [Uint32, bytes32, List.getD_cons_zero, List.getD_cons_succ]
  refine congrArg₂ _ ?_ (congrArg₂ _ ?_ (congrArg₂ _ ?_ (congrArg₂ _ ?_ rfl))) <;> omega

theorem Uint32_lt (a b c d : Nat) (ha : a < 256) (hb : b < 256) (hc : c < 256)
    (hd : d < 256) : Uint32 [a, b, c, d] < 2 ^ 32 := by
  simp only [Uint32, List.getD_cons_zero, List.getD_cons_succ]
  omega

theorem bytes32_length (v : Nat) : (bytes32 v).length = 4 := rfl

theorem bytes64_length (v : Nat) : (bytes64 v).length = 8 := rfl

theorem bytes32_lt (v x : Nat) (h : x ∈ bytes32 v) : x < 256 := by
  simp only [bytes32, List.mem_cons, List.mem_singleton, List.not_mem_nil, or_false] at h
  omega

/-! ## The round function -/

theorem sBoxAt_lt : ∀ i < 8, ∀ j < 16, sBoxAt i j < 16 := by decide

theorem or_shift_eq_add (r s k : Nat) (hr : r < 2 ^ k) : r ||| s <<< k = r + s * 2 ^ k := by
  rw [Nat.shiftLeft_eq, Nat.or_comm, Nat.mul_comm s, ← Nat.mul_add_lt_is_or hr]
  omega

theorem shift_and_eq_nibble (v i : Nat) : (v >>> (4 * i)) &&& 0x0F = nibble v i := by
  have h : (15 : Nat) = 2 ^ 4 - 1 := rfl
  rw [h, Nat.and_pow_two_sub_one_eq_mod, Nat.shiftRight_eq_div_pow, Nat.pow_mul]
  rfl

/-- The accumulation loop of `f` after `n` iterations holds the `n` low substituted
nibbles. -/
theorem subst_fold (v n : Nat) (hn : n ≤ 8) :
    (List.range n).foldl
      (fun result i =>
        result ||| ((sBoxAt i ((v >>> (4 * i)) &&& 0x0F) % 2 ^ 32) <<< (4 * i)) % 2 ^ 32) 0
      = ((List.range n).map fun i => sBoxAt i (nibble v i) * 16 ^ i).sum
    ∧ ((List.range n).map fun i => sBoxAt i (nibble v i) * 16 ^ i).sum < 16 ^ n := by
  induction n with
  | zero => simp
  | succ n ih =>
    obtain ⟨ih1, ih2⟩ := ih (by omega)
    have hs : sBoxAt n (nibble v n) < 16 :=
      sBoxAt_lt n (by omega) _ (Nat.mod_lt _ (by norm_num))
    have hpow : (16 : Nat) ^ n = 2 ^ (4 * n) := by rw [Nat.pow_mul]
    have hle : (2 : Nat) ^ (4 * n) * 16 ≤ 2 ^ 32 := by
      have : (2 : Nat) ^ (4 * n) * 16 = 2 ^ (4 * n + 4) := by rw [Nat.pow_add]
      rw [this]
      exact Nat.pow_le_pow_right (by norm_num) (by omega)
    have hmul : sBoxAt n (nibble v n) * 2 ^ (4 * n) < 2 ^ 32 := by
      have : sBoxAt n (nibble v n) * 2 ^ (4 * n) < 16 * 2 ^ (4 * n) :=
        Nat.mul_lt_mul_of_pos_right hs (Nat.pow_pos (by norm_num))
      omega
    rw [List.range_succ, List.foldl_append, List.map_append, List.sum_append, ih1]
    simp only [List.foldl_cons, List.foldl_nil, List.map_cons, List.map_nil, List.sum_cons,
      List.sum_nil, Nat.add_zero, shift_and_eq_nibble]
    rw [Nat.mod_eq_of_lt (lt_of_lt_of_le hs (by norm_num)), Nat.shiftLeft_eq,
      Nat.mod_eq_of_lt hmul, ← Nat.shiftLeft_eq, or_shift_eq_add _ _ _ (hpow ▸ ih2), hpow]
    refine ⟨rfl, ?_⟩
    rw [Nat.pow_succ, ← hpow] at *
    nlinarith

theorem substNibbles_lt (v : Nat) : substNibbles v < 2 ^ 32 :=
  (subst_fold v 8 (le_refl 8)).2

theorem rotl_eq (w : Nat) (hw : w < 2 ^ 32) :
    ((w <<< 11) % 2 ^ 32) ||| (w >>> (32 - 11)) = rotl11 w := by
  have h1 : (w <<< 11) % 2 ^ 32 = (w % 2 ^ 21) <<< 11 := by
    rw [Nat.shiftLeft_eq, Nat.shiftLeft_eq]; omega
  have h2 : w >>> (32 - 11) < 2 ^ 11 := by
    rw [Nat.shiftRight_eq_div_pow]; omega
  have h3 : w >>> (32 - 11) = w / 2 ^ 21 % 2 ^ 11 := by
    rw [Nat.shiftRight_eq_div_pow]; omega
  rw [h1, Nat.or_comm, or_shift_eq_add _ _ _ h2, h3, rotl11]
  omega

theorem f_eq (block key : Nat) :
    f block key = rotl11 (substNibbles ((block + key) % 2 ^ 32)) := by
  have h := subst_fold ((block + key) % 2 ^ 32) 8 (le_refl 8)
  simp only [f, Nat.mod_mod]
  rw [h.1]
  exact rotl_eq _ h.2

theorem rotl11_lt (w : Nat) : rotl11 w < 2 ^ 32 := by
  unfold rotl11
  omega

theorem f_lt (block key : Nat) : f block key < 2 ^ 32 := by
  rw [f_eq]
  exact rotl11_lt _

/-! ## The key schedule -/

/-- Word `i` of the key: the little-endian value of `key[4i .. 4i+3]`. -/
theorem Uint32_slice (key : List Nat) (i : Nat) :
    Uint32 ((key.drop (i * 4)).take 4)
      = key.getD (4 * i) 0 + key.getD (4 * i + 1) 0 * 2 ^ 8 + key.getD (4 * i + 2) 0 * 2 ^ 16
        + key.getD (4 * i + 3) 0 * 2 ^ 24 := by
  simp only [Uint32, List.getD_eq_getElem?_getD, List.getElem?_take, List.getElem?_drop]
  simp [Nat.mul_comm]

theorem expandKey_eq (key : List Nat) (w : Nat → Nat)
    (hw : ∀ i, w i = Uint32 ((key.drop (i * 4)).take 4)) :
    expandKey { subkeys := List.replicate 32 0 } key =
      { subkeys :=
          [w 0, w 1, w 2, w 3, w 4, w 5, w 6, w 7, w 0, w 1, w 2, w 3, w 4, w 5, w 6, w 7,
           w 0, w 1, w 2, w 3, w 4, w 5, w 6, w 7, w 7, w 6, w 5, w 4, w 3, w 2, w 1, w 0] } := by
  simp only [expandKey, ← hw, List.range, List.range.loop, List.range', List.replicate,
    List.foldl_cons, List.foldl_nil, List.set_cons_zero, List.set_cons_succ,
    List.getD_cons_zero, List.getD_cons_succ, Nat.reduceAdd, Nat.reduceMod, Nat.reduceSub]

theorem NewMagmaCore_ok (key : List Nat) (hk : key.length = 32) :
    NewMagmaCore key = Except.ok (expandKey { subkeys := List.replicate 32 0 } key) := by
  simp [NewMagmaCore, KeySize, hk]

/-- C5: for every 32-byte key, `NewMagmaCore` succeeds with a schedule of exactly 32 words:
word `i < 8` is the little-endian 32-bit value of key bytes `4i .. 4i+3`, word `i` for
`8 ≤ i < 24` equals word `i mod 8`, and word `i` for `24 ≤ i < 32` equals word `31 - i`. -/
theorem NewMagmaCore_key_schedule (key : List Nat) (hk : key.length = 32) :
    ∃ m, NewMagmaCore key = Except.ok m ∧ m.subkeys.length = 32 ∧
      (∀ i, i < 8 → m.subkeys.getD i 0
          = key.getD (4 * i) 0 + key.getD (4 * i + 1) 0 * 2 ^ 8
            + key.getD (4 * i + 2) 0 * 2 ^ 16 + key.getD (4 * i + 3) 0 * 2 ^ 24) ∧
      (∀ i, 8 ≤ i → i < 24 → m.subkeys.getD i 0 = m.subkeys.getD (i % 8) 0) ∧
      (∀ i, 24 ≤ i → i < 32 → m.subkeys.getD i 0 = m.subkeys.getD (31 - i) 0) := by
  refine ⟨_, NewMagmaCore_ok key hk, ?_⟩
  rw [expandKey_eq key (fun i => Uint32 ((key.drop (i * 4)).take 4)) (fun _ => rfl)]
  refine ⟨rfl, ?_, ?_, ?_⟩
  · intro i hi
    rw [← Uint32_slice]
    interval_cases i <;> rfl
  · intro i h1 h2
    interval_cases i <;> rfl
  · intro i h1 h2
    interval_cases i <;> rfl

theorem NewMagmaCore_key_schedule_witness :
    ∃ m, NewMagmaCore (List.range 32) = Except.ok m ∧ m.subkeys.length = 32 ∧
      (∀ i, i < 8 → m.subkeys.getD i 0
          = (List.range 32).getD (4 * i) 0 + (List.range 32).getD (4 * i + 1) 0 * 2 ^ 8
            + (List.range 32).getD (4 * i + 2) 0 * 2 ^ 16
            + (List.range 32).getD (4 * i + 3) 0 * 2 ^ 24) ∧
      (∀ i, 8 ≤ i → i < 24 → m.subkeys.getD i 0 = m.subkeys.getD (i % 8) 0) ∧
      (∀ i, 24 ≤ i → i < 32 → m.subkeys.getD i 0 = m.subkeys.getD (31 - i) 0) :=
  NewMagmaCore_key_schedule (List.range 32) (by decide)

/-- C9: `NewMagmaCore` returns an error exactly when the key is not 32 bytes long, and
returns an engine exactly when it is. -/
theorem NewMagmaCore_error_iff (key : List Nat) :
    ((∃ e, NewMagmaCore key = Except.error e) ↔ key.length ≠ 32) ∧
    ((∃ m, NewMagmaCore key = Except.ok m) ↔ key.length = 32) := by
  by_cases hk : key.length = 32
  · simp [NewMagmaCore, KeySize, hk]
  · simp [NewMagmaCore, KeySize, hk]

theorem NewMagmaCore_error_iff_witness :
    (∃ e, NewMagmaCore [1, 2, 3] = Except.error e) ∧
    (∃ m, NewMagmaCore (List.replicate 32 7) = Except.ok m) :=
  ⟨(NewMagmaCore_error_iff [1, 2, 3]).1.mpr (by decide),
   (NewMagmaCore_error_iff (List.replicate 32 7)).2.mpr (by decide)⟩

/-- C4: `f(block, key)` is the left rotation by 11 bits of the nibble-wise substitution of
`(block + key) mod 2^32`; in particular it depends only on `(block + key) mod 2^32`. -/
theorem f_round_function (block key : Nat) :
    f block key = rotl11 (substNibbles ((block + key) % 2 ^ 32)) ∧
    ∀ block1 key1, (block1 + key1) % 2 ^ 32 = (block + key) % 2 ^ 32 →
      f block1 key1 = f block key := by
  refine ⟨f_eq block key, ?_⟩
  intro block1 key1 h
  rw [f_eq, f_eq, h]

theorem f_round_function_witness :
    (1 + 0) % 2 ^ 32 = (4294967295 + 2) % 2 ^ 32 ∧ f 1 0 = f 4294967295 2 :=
  ⟨by decide, (f_round_function 4294967295 2).2 1 0 (by decide)⟩

/-! ## EncryptBlock -/

theorem feistel_fold (K : List Nat) (n : Nat) (lr : Nat × Nat) :
    (List.range n).foldl (fun lr i => (lr.2, lr.1 ^^^ f lr.2 (K.getD i 0))) lr
      = feistelRounds K n lr := by
  induction n with
  | zero => rfl
  | succ n ih =>
    rw [List.range_succ, List.foldl_append, ih]
    rfl

theorem feistel_eq (m : MagmaCore) (l r : Nat) :
    feistel m l r = feistelRounds m.subkeys 32 (l, r) :=
  feistel_fold m.subkeys 32 (l, r)

/-- The destination after a call that does not panic: the encoded halves followed by the
untouched tail of the destination. -/
theorem EncryptBlock_eq (m : MagmaCore) (dst src : List Nat) (hs : 8 ≤ src.length)
    (hd : 8 ≤ dst.length) :
    EncryptBlock m dst src
      = some (bytes32 (feistelRounds m.subkeys 32 (Uint32 (src.take 4), Uint32 (src.drop 4))).2
          ++ bytes32 (feistelRounds m.subkeys 32 (Uint32 (src.take 4), Uint32 (src.drop 4))).1
          ++ dst.drop 8) := by
  have h1 : ¬ src.length < BlockSize := by simp [BlockSize]; omega
  have h2 : ¬ dst.length < BlockSize := by simp [BlockSize]; omega
  have h3 : (dst.take 4).drop 4 = [] := by
    apply List.drop_of_length_le
    rw [List.length_take]
    omega
  simp only [EncryptBlock, h1, h2, if_false, PutUint32, feistel_eq, h3]
  simp [bytes32_length, List.drop_drop, List.take_append_of_le_length,
    List.drop_append_of_le_length]

theorem EncryptBlock_block (m : MagmaCore) (dst src : List Nat) (hs : 8 ≤ src.length)
    (hd : dst.length = 8) :
    EncryptBlock m dst src
      = some (bytes32 (feistelRounds m.subkeys 32 (Uint32 (src.take 4), Uint32 (src.drop 4))).2
          ++ bytes32 (feistelRounds m.subkeys 32 (Uint32 (src.take 4), Uint32 (src.drop 4))).1) := by
  have h : dst.drop 8 = [] := List.drop_of_length_le (by omega)
  rw [EncryptBlock_eq m dst src hs (by omega), h, List.append_nil]

theorem EncryptBlock_length (m : MagmaCore) (dst src out : List Nat) (hd : dst.length = 8)
    (h : EncryptBlock m dst src = some out) : out.length = 8 := by
  by_cases hs : 8 ≤ src.length
  · rw [EncryptBlock_block m dst src hs hd] at h
    cases h
    rfl
  · simp [EncryptBlock, BlockSize, Nat.lt_of_not_le hs] at h

/-- C3: `EncryptBlock` reads the source as the little-endian halves `left` (bytes 0..3) and
`right` (bytes 4..7), applies the rounds `0, ..., 31` in order, and stores the
little-endian bytes of `right` in destination bytes 0..3 and of `left` in bytes 4..7. -/
theorem EncryptBlock_structure (K dst : List Nat) (s0 s1 s2 s3 s4 s5 s6 s7 : Nat)
    (hd : 8 ≤ dst.length) :
    EncryptBlock { subkeys := K } dst [s0, s1, s2, s3, s4, s5, s6, s7]
      = some
          ([(feistelRounds K 32 (s0 + s1 * 2 ^ 8 + s2 * 2 ^ 16 + s3 * 2 ^ 24,
                s4 + s5 * 2 ^ 8 + s6 * 2 ^ 16 + s7 * 2 ^ 24)).2 % 256,
            (feistelRounds K 32 (s0 + s1 * 2 ^ 8 + s2 * 2 ^ 16 + s3 * 2 ^ 24,
                s4 + s5 * 2 ^ 8 + s6 * 2 ^ 16 + s7 * 2 ^ 24)).2 / 2 ^ 8 % 256,
            (feistelRounds K 32 (s0 + s1 * 2 ^ 8 + s2 * 2 ^ 16 + s3 * 2 ^ 24,
                s4 + s5 * 2 ^ 8 + s6 * 2 ^ 16 + s7 * 2 ^ 24)).2 / 2 ^ 16 % 256,
            (feistelRounds K 32 (s0 + s1 * 2 ^ 8 + s2 * 2 ^ 16 + s3 * 2 ^ 24,
                s4 + s5 * 2 ^ 8 + s6 * 2 ^ 16 + s7 * 2 ^ 24)).2 / 2 ^ 24 % 256,
            (feistelRounds K 32 (s0 + s1 * 2 ^ 8 + s2 * 2 ^ 16 + s3 * 2 ^ 24,
                s4 + s5 * 2 ^ 8 + s6 * 2 ^ 16 + s7 * 2 ^ 24)).1 % 256,
            (feistelRounds K 32 (s0 + s1 * 2 ^ 8 + s2 * 2 ^ 16 + s3 * 2 ^ 24,
                s4 + s5 * 2 ^ 8 + s6 * 2 ^ 16 + s7 * 2 ^ 24)).1 / 2 ^ 8 % 256,
            (feistelRounds K 32 (s0 + s1 * 2 ^ 8 + s2 * 2 ^ 16 + s3 * 2 ^ 24,
                s4 + s5 * 2 ^ 8 + s6 * 2 ^ 16 + s7 * 2 ^ 24)).1 / 2 ^ 16 % 256,
            (feistelRounds K 32 (s0 + s1 * 2 ^ 8 + s2 * 2 ^ 16 + s3 * 2 ^ 24,
                s4 + s5 * 2 ^ 8 + s6 * 2 ^ 16 + s7 * 2 ^ 24)).1 / 2 ^ 24 % 256]
            ++ dst.drop 8) := by
  rw [EncryptBlock_eq _ dst _ (by simp) hd]
  rfl

theorem EncryptBlock_structure_witness :
    EncryptBlock { subkeys := List.range 32 } (List.replicate 9 1) [1, 2, 3, 4, 5, 6, 7, 8]
      = some
          ([(feistelRounds (List.range 32) 32 (1 + 2 * 2 ^ 8 + 3 * 2 ^ 16 + 4 * 2 ^ 24,
                5 + 6 * 2 ^ 8 + 7 * 2 ^ 16 + 8 * 2 ^ 24)).2 % 256,
            (feistelRounds (List.range 32) 32 (1 + 2 * 2 ^ 8 + 3 * 2 ^ 16 + 4 * 2 ^ 24,
                5 + 6 * 2 ^ 8 + 7 * 2 ^ 16 + 8 * 2 ^ 24)).2 / 2 ^ 8 % 256,
            (feistelRounds (List.range 32) 32 (1 + 2 * 2 ^ 8 + 3 * 2 ^ 16 + 4 * 2 ^ 24,
                5 + 6 * 2 ^ 8 + 7 * 2 ^ 16 + 8 * 2 ^ 24)).2 / 2 ^ 16 % 256,
            (feistelRounds (List.range 32) 32 (1 + 2 * 2 ^ 8 + 3 * 2 ^ 16 + 4 * 2 ^ 24,
                5 + 6 * 2 ^ 8 + 7 * 2 ^ 16 + 8 * 2 ^ 24)).2 / 2 ^ 24 % 256,
            (feistelRounds (List.range 32) 32 (1 + 2 * 2 ^ 8 + 3 * 2 ^ 16 + 4 * 2 ^ 24,
                5 + 6 * 2 ^ 8 + 7 * 2 ^ 16 + 8 * 2 ^ 24)).1 % 256,
            (feistelRounds (List.range 32) 32 (1 + 2 * 2 ^ 8 + 3 * 2 ^ 16 + 4 * 2 ^ 24,
                5 + 6 * 2 ^ 8 + 7 * 2 ^ 16 + 8 * 2 ^ 24)).1 / 2 ^ 8 % 256,
            (feistelRounds (List.range 32) 32 (1 + 2 * 2 ^ 8 + 3 * 2 ^ 16 + 4 * 2 ^ 24,
                5 + 6 * 2 ^ 8 + 7 * 2 ^ 16 + 8 * 2 ^ 24)).1 / 2 ^ 16 % 256,
            (feistelRounds (List.range 32) 32 (1 + 2 * 2 ^ 8 + 3 * 2 ^ 16 + 4 * 2 ^ 24,
                5 + 6 * 2 ^ 8 + 7 * 2 ^ 16 + 8 * 2 ^ 24)).1 / 2 ^ 24 % 256]
            ++ (List.replicate 9 1).drop 8) :=
  EncryptBlock_structure (List.range 32) (List.replicate 9 1) 1 2 3 4 5 6 7 8 (by decide)

/-! ## Inverting the Feistel network -/

theorem feistelRound_swap (k : Nat) (lr : Nat × Nat) :
    feistelRound k (Prod.swap (feistelRound k lr)) = Prod.swap lr := by
  obtain ⟨l, r⟩ := lr
  simp only [feistelRound, Prod.swap]
  rw [Nat.xor_assoc, Nat.xor_self, Nat.xor_zero]

theorem feistelRounds_reverse (K K2 : List Nat)
    (h : ∀ i, i < 32 → K2.getD i 0 = K.getD (31 - i) 0) (lr : Nat × Nat) (n : Nat)
    (hn : n ≤ 32) :
    feistelRounds K2 n (Prod.swap (feistelRounds K 32 lr))
      = Prod.swap (feistelRounds K (32 - n) lr) := by
  induction n with
  | zero => rfl
  | succ n ih =>
    have h1 : 32 - n = (31 - n) + 1 := by omega
    have h2 : 32 - (n + 1) = 31 - n := by omega
    rw [feistelRounds, ih (by omega), h (n) (by omega), h1, h2, feistelRounds]
    exact feistelRound_swap _ _

theorem feistelRounds_lt (K : List Nat) (n : Nat) (lr : Nat × Nat) (h1 : lr.1 < 2 ^ 32)
    (h2 : lr.2 < 2 ^ 32) :
    (feistelRounds K n lr).1 < 2 ^ 32 ∧ (feistelRounds K n lr).2 < 2 ^ 32 := by
  induction n with
  | zero => exact ⟨h1, h2⟩
  | succ n ih =>
    rw [feistelRounds]
    exact ⟨ih.2, Nat.xor_lt_two_pow ih.1 (f_lt _ _)⟩

theorem reversedSchedule_getD (K : List Nat) (i : Nat) (hi : i < 32) :
    (reversedSchedule K).getD i 0 = K.getD (31 - i) 0 := by
  simp [reversedSchedule, List.getD_eq_getElem?_getD, List.getElem?_range hi]

theorem getD_reversedSchedule (K : List Nat) (i : Nat) (hi : i < 32) :
    K.getD i 0 = (reversedSchedule K).getD (31 - i) 0 := by
  rw [reversedSchedule_getD K (31 - i) (by omega)]
  congr 1
  omega

theorem eq_of_length_eight (b : List Nat) (h : b.length = 8) :
    ∃ s0 s1 s2 s3 s4 s5 s6 s7, b = [s0, s1, s2, s3, s4, s5, s6, s7] := by
  rcases b with _ | ⟨s0, _ | ⟨s1, _ | ⟨s2, _ | ⟨s3, _ | ⟨s4, _ | ⟨s5, _ | ⟨s6, _ | ⟨s7, _ | ⟨s8, t⟩⟩⟩⟩⟩⟩⟩⟩⟩
    <;> simp at h
  exact ⟨s0, s1, s2, s3, s4, s5, s6, s7, rfl⟩

/-- Encrypting with `K` and then with a schedule `K2` that is `K` in reverse order gives
the block back. -/
theorem EncryptBlock_then_reverse (K K2 : List Nat)
    (h : ∀ i, i < 32 → K2.getD i 0 = K.getD (31 - i) 0) (dst dst2 b : List Nat)
    (hd : dst.length = 8) (hd2 : dst2.length = 8) (hb : IsBlock b) :
    ∃ c, IsBlock c ∧ EncryptBlock { subkeys := K } dst b = some c ∧
      EncryptBlock { subkeys := K2 } dst2 c = some b := by
  obtain ⟨hlen, hbytes⟩ := hb
  obtain ⟨s0, s1, s2, s3, s4, s5, s6, s7, rfl⟩ := eq_of_length_eight b hlen
  simp only [List.mem_cons, List.mem_singleton, List.not_mem_nil, or_false,
    forall_eq_or_imp, forall_eq] at hbytes
  obtain ⟨h0, h1, h2, h3, h4, h5, h6, h7⟩ := hbytes
  have hl : Uint32 [s0, s1, s2, s3] < 2 ^ 32 := Uint32_lt _ _ _ _ h0 h1 h2 h3
  have hr : Uint32 [s4, s5, s6, s7] < 2 ^ 32 := Uint32_lt _ _ _ _ h4 h5 h6 h7
  have hlt := feistelRounds_lt K 32 (Uint32 [s0, s1, s2, s3], Uint32 [s4, s5, s6, s7]) hl hr
  refine ⟨_, ?_, EncryptBlock_block _ dst _ (by simp) hd, ?_⟩
  · refine ⟨rfl, ?_⟩
    intro x hx
    rcases List.mem_append.1 hx with hx | hx <;> exact bytes32_lt _ _ hx
  · rw [EncryptBlock_block _ dst2 _ (by simp [bytes32_length]) hd2]
    have e1 : ∀ u v : Nat, List.take 4 (bytes32 u ++ bytes32 v) = bytes32 u := fun _ _ => rfl
    have e2 : ∀ u v : Nat, List.drop 4 (bytes32 u ++ bytes32 v) = bytes32 v := fun _ _ => rfl
    have e3 : List.take 4 [s0, s1, s2, s3, s4, s5, s6, s7] = [s0, s1, s2, s3] := rfl
    have e4 : Uint32 (List.drop 4 [s0, s1, s2, s3, s4, s5, s6, s7]) = Uint32 [s4, s5, s6, s7] :=
      rfl
    simp only [e1, e2, e3, e4, Uint32_bytes32, Nat.mod_eq_of_lt hlt.1, Nat.mod_eq_of_lt hlt.2]
    have hrev : feistelRounds K2 32
        ((feistelRounds K 32 (Uint32 [s0, s1, s2, s3], Uint32 [s4, s5, s6, s7])).2,
         (feistelRounds K 32 (Uint32 [s0, s1, s2, s3], Uint32 [s4, s5, s6, s7])).1)
        = (Uint32 [s4, s5, s6, s7], Uint32 [s0, s1, s2, s3]) :=
      feistelRounds_reverse K K2 h
        (Uint32 [s0, s1, s2, s3], Uint32 [s4, s5, s6, s7]) 32 (le_refl 32)
    rw [hrev, bytes32_Uint32 _ _ _ _ h0 h1 h2 h3, bytes32_Uint32 _ _ _ _ h4 h5 h6 h7]
    rfl

/-- C6: running the Feistel structure of `EncryptBlock` with the schedule reversed (round
`i` uses `K[31 - i]`) undoes `EncryptBlock` under `K`, and the other way round; hence
`EncryptBlock` under `K` is injective on 8-byte blocks and reaches every 8-byte block. -/
theorem EncryptBlock_reversed_schedule (K : List Nat) :
    (∀ dst dst2 b, dst.length = 8 → dst2.length = 8 → IsBlock b →
      ∃ c, IsBlock c ∧ EncryptBlock { subkeys := K } dst b = some c ∧
        EncryptBlock { subkeys := reversedSchedule K } dst2 c = some b) ∧
    (∀ dst dst2 b, dst.length = 8 → dst2.length = 8 → IsBlock b →
      ∃ c, IsBlock c ∧ EncryptBlock { subkeys := reversedSchedule K } dst b = some c ∧
        EncryptBlock { subkeys := K } dst2 c = some b) ∧
    (∀ dst b1 b2, dst.length = 8 → IsBlock b1 → IsBlock b2 →
      EncryptBlock { subkeys := K } dst b1 = EncryptBlock { subkeys := K } dst b2 → b1 = b2) ∧
    (∀ dst c, dst.length = 8 → IsBlock c →
      ∃ b, IsBlock b ∧ EncryptBlock { subkeys := K } dst b = some c) := by
  have fwd := EncryptBlock_then_reverse K (reversedSchedule K) (reversedSchedule_getD K)
  have bwd := EncryptBlock_then_reverse (reversedSchedule K) K (getD_reversedSchedule K)
  refine ⟨fwd, bwd, ?_, ?_⟩
  · intro dst b1 b2 hd hb1 hb2 heq
    obtain ⟨c1, _, e1, d1⟩ := fwd dst dst b1 hd hd hb1
    obtain ⟨c2, _, e2, d2⟩ := fwd dst dst b2 hd hd hb2
    rw [e1, e2] at heq
    cases heq
    rw [d1] at d2
    exact Option.some.inj d2
  · intro dst c hd hc
    obtain ⟨b, hb, _, e⟩ := bwd dst dst c hd hd hc
    exact ⟨b, hb, e⟩

theorem EncryptBlock_reversed_schedule_witness :
    ∃ c, IsBlock c ∧
      EncryptBlock { subkeys := List.range 32 } (List.replicate 8 0) [1, 2, 3, 4, 5, 6, 7, 255]
        = some c ∧
      EncryptBlock { subkeys := reversedSchedule (List.range 32) } (List.replicate 8 0) c
        = some [1, 2, 3, 4, 5, 6, 7, 255] :=
  (EncryptBlock_reversed_schedule (List.range 32)).1 (List.replicate 8 0) (List.replicate 8 0)
    [1, 2, 3, 4, 5, 6, 7, 255] (by decide) (by decide) (by decide)

/-! ## NewMGM -/

theorem copy_nonce (nonce : List Nat) (hn : nonce.length = 8) :
    copy (List.replicate BlockSize 0) nonce = nonce := by
  have h1 : List.take 8 nonce = nonce := List.take_of_length_le (by omega)
  simp [copy, BlockSize, hn, h1]

theorem EncryptBlock_isSome (E : MagmaCore) (dst src : List Nat) (hs : 8 ≤ src.length)
    (hd : 8 ≤ dst.length) : ∃ c, EncryptBlock E dst src = some c :=
  ⟨_, EncryptBlock_eq E dst src hs hd⟩

/-- The processor built from a 32-byte key and an 8-byte nonce. -/
theorem NewMGM_ok (key nonce : List Nat) (hk : key.length = 32) (hn : nonce.length = 8) :
    ∃ core c, NewMagmaCore key = Except.ok core ∧
      EncryptBlock core (List.replicate 8 0) (List.replicate 8 0) = some c ∧
      NewMGM key nonce
        = some (Except.ok { E := core, H := Uint64 c, nonce := nonce, buffer := c }) := by
  obtain ⟨c, hc⟩ := EncryptBlock_isSome (expandKey { subkeys := List.replicate 32 0 } key)
    (List.replicate 8 0) (List.replicate 8 0) (by simp) (by simp)
  refine ⟨_, c, NewMagmaCore_ok key hk, hc, ?_⟩
  have hn2 : ¬ nonce.length ≠ BlockSize := by simp [BlockSize, hn]
  simp only [NewMGM, hn2, if_false, NewMagmaCore_ok key hk, copy_nonce nonce hn]
  simp only [BlockSize, hc]

/-- C10: `NewMGM` returns an error exactly when the nonce is not 8 bytes or the key is not
32 bytes; a wrong nonce length is reported whatever the key is; the call never panics; and
on success the counter bytes are the supplied nonce and `H` is the little-endian 64-bit
reading of `EncryptBlock` applied to the all-zero block. -/
theorem NewMGM_result (key nonce : List Nat) :
    ((∃ e, NewMGM key nonce = some (Except.error e)) ↔
        (nonce.length ≠ 8 ∨ key.length ≠ 32)) ∧
    (nonce.length ≠ 8 → NewMGM key nonce = some (Except.error "nonce must be 8 bytes")) ∧
    (nonce.length = 8 → key.length ≠ 32 →
      NewMGM key nonce = some (Except.error "invalid key length")) ∧
    (nonce.length = 8 → key.length = 32 → ∃ m, NewMGM key nonce = some (Except.ok m)) ∧
    NewMGM key nonce ≠ none ∧
    (∀ m, NewMGM key nonce = some (Except.ok m) →
      m.nonce = nonce ∧ NewMagmaCore key = Except.ok m.E ∧
      ∃ c, EncryptBlock m.E (List.replicate 8 0) (List.replicate 8 0) = some c ∧
        m.H = Uint64 c) := by
  by_cases hn : nonce.length = 8
  · by_cases hk : key.length = 32
    · obtain ⟨core, c, h1, h2, h3⟩ := NewMGM_ok key nonce hk hn
      refine ⟨?_, fun h => absurd hn h, fun _ h => absurd hk h, fun _ _ => ⟨_, h3⟩, ?_, ?_⟩
      · simp [h3, hn, hk]
      · simp [h3]
      · intro m hm
        rw [h3] at hm
        cases hm
        exact ⟨rfl, h1, c, h2, rfl⟩
    · have e : NewMGM key nonce = some (Except.error "invalid key length") := by
        simp [NewMGM, NewMagmaCore, BlockSize, KeySize, hn, hk]
      refine ⟨?_, fun h => absurd hn h, fun _ _ => e, fun _ h => absurd h hk, ?_, ?_⟩
      · simp [e, hk]
      · simp [e]
      · intro m hm
        rw [e] at hm
        cases hm
  · have e : NewMGM key nonce = some (Except.error "nonce must be 8 bytes") := by
      simp [NewMGM, BlockSize, hn]
    refine ⟨?_, fun _ => e, fun h => absurd h hn, fun h => absurd h hn, ?_, ?_⟩
    · simp [e, hn]
    · simp [e]
    · intro m hm
      rw [e] at hm
      cases hm

theorem NewMGM_result_witness :
    NewMGM [] [1, 2, 3] = some (Except.error "nonce must be 8 bytes") ∧
    NewMGM [1] (List.range 8) = some (Except.error "invalid key length") ∧
    ∃ m, NewMGM (List.range 32) (List.range 8) = some (Except.ok m) :=
  ⟨(NewMGM_result [] [1, 2, 3]).2.1 (by decide),
   (NewMGM_result [1] (List.range 8)).2.2.1 (by decide) (by decide),
   (NewMGM_result (List.range 32) (List.range 8)).2.2.2.1 (by decide) (by decide)⟩

/-! ## The loop of processBlocks: splitting at a block boundary -/

theorem processBlocksStep_eq (src : List Nat) (m : MGM) (dst : List Nat) (i : Nat) :
    processBlocksStep src (m, dst) i = (advance m i).bind fun m2 => store src m2 dst i :=
  rfl

theorem store_length (src : List Nat) (m2 : MGM) (dst : List Nat) (i : Nat)
    (r : MGM × List Nat) (h : store src m2 dst i = some r) : r.2.length = dst.length := by
  unfold store at h
  split at h
  · split at h
    · cases h
      simp
    · cases h
  · cases h
    rfl

theorem processBlocksStep_length (src : List Nat) (st : MGM × List Nat) (i : Nat)
    (r : MGM × List Nat) (h : processBlocksStep src st i = some r) :
    r.2.length = st.2.length := by
  obtain ⟨m, dst⟩ := st
  rw [processBlocksStep_eq] at h
  cases ha : advance m i with
  | none => rw [ha] at h; cases h
  | some m2 =>
    rw [ha] at h
    exact store_length src m2 dst i r h

theorem foldlM_step_length (src : List Nat) (l : List Nat) (st r : MGM × List Nat)
    (h : l.foldlM (processBlocksStep src) st = some r) : r.2.length = st.2.length := by
  induction l generalizing st with
  | nil =>
    simp only [List.foldlM_nil] at h
    cases h
    rfl
  | cons i l ih =>
    rw [List.foldlM_cons] at h
    cases hs : processBlocksStep src st i with
    | none => rw [hs] at h; cases h
    | some st2 =>
      rw [hs] at h
      rw [ih st2 h]
      exact processBlocksStep_length src st i st2 hs

theorem processBlocks_length (m : MGM) (dst src : List Nat) (r : MGM × List Nat)
    (h : processBlocks m dst src = some r) : r.2.length = dst.length :=
  foldlM_step_length src _ (m, dst) r h

theorem store_append_left (a b d1 d2 : List Nat) (m2 : MGM) (i : Nat) (hi : i < a.length)
    (hd : i < d1.length) :
    store (a ++ b) m2 (d1 ++ d2) i = (store a m2 d1 i).map fun r => (r.1, r.2 ++ d2) := by
  have h1 : i < (d1 ++ d2).length := by rw [List.length_append]; omega
  simp only [store, h1, hd, if_true, List.getElem?_append_left hi,
    List.set_append_left _ _ hd]
  cases a[i]? <;> cases m2.buffer[i % BlockSize]? <;> rfl

theorem store_append_right (a b d1 d : List Nat) (m2 : MGM) (i : Nat)
    (ha : a.length % 8 = 0) (hd : d1.length = a.length) :
    store (a ++ b) m2 (d1 ++ d) (a.length + i)
      = (store b m2 d i).map fun r => (r.1, d1 ++ r.2) := by
  have h1 : (a.length + i) % BlockSize = i % BlockSize := by
    simp only [BlockSize]; omega
  have h2 : (a ++ b)[a.length + i]? = b[i]? := by
    rw [List.getElem?_append_right (by omega)]
    congr 1
    omega
  have h3 : ∀ v, (d1 ++ d).set (a.length + i) v = d1 ++ d.set i v := by
    intro v
    rw [List.set_append_right _ _ (by omega)]
    congr 2
    omega
  by_cases hlt : i < d.length
  · have h4 : a.length + i < (d1 ++ d).length := by rw [List.length_append]; omega
    simp only [store, h4, hlt, if_true, h1, h2, h3]
    cases b[i]? <;> cases m2.buffer[i % BlockSize]? <;> rfl
  · have h4 : ¬ a.length + i < (d1 ++ d).length := by rw [List.length_append]; omega
    simp only [store, h4, hlt, if_false, Option.map_some']

theorem advance_add (m : MGM) (n i : Nat) (hn : n % 8 = 0) :
    advance m (n + i) = advance m i := by
  have h1 : (n + i) % BlockSize = i % BlockSize := by
    simp only [BlockSize]; omega
  simp only [advance, h1]

theorem foldlM_append_left (a b d2 : List Nat) (l : List Nat) (hl : ∀ i ∈ l, i < a.length)
    (m : MGM) (d1 : List Nat) (hd : d1.length = a.length) :
    l.foldlM (processBlocksStep (a ++ b)) (m, d1 ++ d2)
      = (l.foldlM (processBlocksStep a) (m, d1)).map fun r => (r.1, r.2 ++ d2) := by
  induction l generalizing m d1 with
  | nil => rfl
  | cons i l ih =>
    have hi : i < a.length := hl i (List.mem_cons_self _ _)
    rw [List.foldlM_cons, List.foldlM_cons, processBlocksStep_eq, processBlocksStep_eq]
    cases hadv : advance m i with
    | none => rfl
    | some m2 =>
      simp only [Option.some_bind, Option.bind_eq_bind]
      rw [store_append_left a b d1 d2 m2 i hi (by omega)]
      cases hst : store a m2 d1 i with
      | none => rfl
      | some r =>
        obtain ⟨m3, d3⟩ := r
        have hlen : d3.length = d1.length := store_length a m2 d1 i (m3, d3) hst
        simp only [Option.map_some', Option.some_bind]
        exact ih (fun j hj => hl j (List.mem_cons_of_mem _ hj)) m3 d3 (by omega)

theorem foldlM_append_right (a b d1 : List Nat) (ha : a.length % 8 = 0)
    (hd : d1.length = a.length) (l : List Nat) (m : MGM) (d : List Nat) :
    (l.map (a.length + ·)).foldlM (processBlocksStep (a ++ b)) (m, d1 ++ d)
      = (l.foldlM (processBlocksStep b) (m, d)).map fun r => (r.1, d1 ++ r.2) := by
  induction l generalizing m d with
  | nil => rfl
  | cons i l ih =>
    rw [List.map_cons, List.foldlM_cons, List.foldlM_cons, processBlocksStep_eq,
      processBlocksStep_eq, advance_add m _ i ha]
    cases hadv : advance m i with
    | none => rfl
    | some m2 =>
      simp only [Option.some_bind, Option.bind_eq_bind]
      rw [store_append_right a b d1 d m2 i ha hd]
      cases hst : store b m2 d i with
      | none => rfl
      | some r =>
        obtain ⟨m3, d3⟩ := r
        simp only [Option.map_some', Option.some_bind]
        exact ih m3 d3

/-- Splitting a call of `processBlocks` at a block boundary. -/
theorem processBlocks_append (m : MGM) (a b d1 d2 : List Nat) (ha : a.length % 8 = 0)
    (hd : d1.length = a.length) :
    processBlocks m (d1 ++ d2) (a ++ b)
      = (processBlocks m d1 a).bind fun r =>
          (processBlocks r.1 d2 b).map fun r2 => (r2.1, r.2 ++ r2.2) := by
  unfold processBlocks
  rw [List.length_append, List.range_add, List.foldlM_append,
    foldlM_append_left a b d2 _ (fun i hi => List.mem_range.1 hi) m d1 hd]
  cases h1 : (List.range a.length).foldlM (processBlocksStep a) (m, d1) with
  | none => rfl
  | some r =>
    obtain ⟨m1, o1⟩ := r
    have hlen : o1.length = d1.length := foldlM_step_length a _ (m, d1) (m1, o1) h1
    simp only [Option.map_some', Option.some_bind, Option.bind_eq_bind]
    exact foldlM_append_right a b o1 ha (by omega) _ m1 d2

/-! ## The file driver is one continuous stream -/

theorem processBlocks_nil (m : MGM) (dst : List Nat) :
    processBlocks m dst [] = some (m, dst) :=
  rfl

theorem AlignedReads_cons (r : ReadResult) (rest : List ReadResult) :
    AlignedReads (r :: rest) ↔
      (r.err.isFailure = false ∧ 0 < r.bytes.length ∧ r.bytes.length ≤ 4096) ∧
      (rest ≠ [] → r.bytes.length % 8 = 0) ∧ AlignedReads rest := by
  cases rest with
  | nil => simp [AlignedReads]
  | cons r2 rest2 =>
    simp only [AlignedReads, List.dropLast_cons₂, List.forall_mem_cons, ne_eq,
      not_false_eq_true, forall_const, reduceCtorEq]
    tauto

theorem readData_cons (r : ReadResult) (rest : List ReadResult) :
    readData (r :: rest) = r.bytes ++ readData rest :=
  rfl

/-- On block-aligned reads without write errors the loop writes what one `processBlocks`
call on the whole data returns. -/
theorem fileLoop_aligned (reads : List ReadResult) :
    ∀ (m : MGM) (written : List Nat) (writes : List (Option String)),
      (∀ w ∈ writes, w = none) → AlignedReads reads →
      fileLoop m written writes reads
        = (processBlocks m (List.replicate (readData reads).length 0) (readData reads)).map
            fun r => { mgm := r.1, written := written ++ r.2, err := none } := by
  induction reads with
  | nil =>
    intro m written writes _ _
    simp [fileLoop, readData, processBlocks_nil]
  | cons r rest ih =>
    intro m written writes hw hal
    obtain ⟨⟨hf, hpos, hle⟩, hmod, hrest⟩ := (AlignedReads_cons r rest).1 hal
    have hw2 : ∀ w ∈ writes.tail, w = none := fun w hm => hw w (List.mem_of_mem_tail hm)
    have hhead : ∀ e, writes.head? ≠ some (some e) := by
      intro e he
      have hmem := List.mem_of_mem_head? he
      exact absurd (hw _ hmem) (by simp)
    have hne : ¬ r.bytes.length = 0 := by omega
    have hle2 : ¬ 4096 < r.bytes.length := by omega
    have hloop : fileLoop m written writes (r :: rest)
        = (processBlocks m (List.replicate r.bytes.length 0) r.bytes).bind fun q =>
            fileLoop q.1 (written ++ q.2) writes.tail rest := by
      rw [fileLoop]
      cases herr : r.err with
      | failed e => rw [herr] at hf; cases hf
      | nil =>
        simp only [hne, hle2, if_false]
        cases processBlocks m (List.replicate r.bytes.length 0) r.bytes with
        | none => rfl
        | some q =>
          obtain ⟨m1, enc⟩ := q
          simp only [Option.some_bind]
      | eof =>
        simp only [hne, hle2, if_false]
        cases processBlocks m (List.replicate r.bytes.length 0) r.bytes with
        | none => rfl
        | some q =>
          obtain ⟨m1, enc⟩ := q
          simp only [Option.some_bind]
    rw [hloop, readData_cons]
    simp only [ih _ _ _ hw2 hrest]
    by_cases hnil : rest = []
    · subst hnil
      have e0 : readData [] = [] := rfl
      rw [e0, List.append_nil]
      cases processBlocks m (List.replicate r.bytes.length 0) r.bytes with
      | none => rfl
      | some q => simp [processBlocks_nil]
    · have hsplit : List.replicate (r.bytes ++ readData rest).length 0
          = List.replicate r.bytes.length 0 ++ List.replicate (readData rest).length 0 := by
        rw [List.length_append, List.replicate_add]
      rw [hsplit, processBlocks_append m _ _ _ _ (hmod hnil) (by simp)]
      cases processBlocks m (List.replicate r.bytes.length 0) r.bytes with
      | none => rfl
      | some q =>
        simp only [Option.some_bind, Option.map_map]
        congr 1
        funext q2
        simp [List.append_assoc]

theorem EncryptFile_aligned (m : MGM) (fs : FileEnv) (he : NoFileError fs)
    (hr : AlignedReads fs.reads) :
    EncryptFile m fs
      = (processBlocks m (List.replicate (readData fs.reads).length 0)
          (readData fs.reads)).map
            fun r => { mgm := r.1, written := r.2, err := none } := by
  obtain ⟨h1, h2, h3⟩ := he
  simp only [EncryptFile, h1, h2]
  rw [fileLoop_aligned fs.reads m [] fs.writes h3 hr]
  simp

theorem DecryptFile_aligned (m : MGM) (fs : FileEnv) (he : NoFileError fs)
    (hr : AlignedReads fs.reads) :
    DecryptFile m fs
      = (processBlocks m (List.replicate (readData fs.reads).length 0)
          (readData fs.reads)).map
            fun r => { mgm := r.1, written := r.2, err := none } := by
  obtain ⟨h1, h2, h3⟩ := he
  simp only [DecryptFile, h1, h2]
  rw [fileLoop_aligned fs.reads m [] fs.writes h3 hr]
  simp

theorem fullReads_unfold (p : List Nat) :
    fullReads p =
      if (p.take 4096).length = 0 then []
      else { bytes := p.take 4096, err := ReadErr.nil } :: fullReads (p.drop 4096) := by
  rw [fullReads]
  split <;> rfl

/-- Reads by full buffers are block aligned and deliver the content. -/
theorem fullReads_aligned (n : Nat) :
    ∀ p : List Nat, p.length = n → AlignedReads (fullReads p) ∧ readData (fullReads p) = p := by
  induction n using Nat.strong_induction_on with
  | _ n ih =>
    intro p hn
    rw [fullReads_unfold]
    by_cases h0 : (p.take 4096).length = 0
    · have hnil : p = [] := by
        rw [List.length_take] at h0
        exact List.length_eq_zero.1 (by omega)
      subst hnil
      rw [if_pos h0]
      exact ⟨⟨by simp, by simp⟩, rfl⟩
    · rw [if_neg h0]
      have hlen : (p.take 4096).length = min 4096 p.length := List.length_take _ _
      have hdrop : (p.drop 4096).length < n := by
        rw [List.length_drop]
        omega
      obtain ⟨ih1, ih2⟩ := ih _ hdrop (p.drop 4096) rfl
      have hb : ({ bytes := p.take 4096, err := ReadErr.nil } : ReadResult).bytes.length
          = min 4096 p.length := hlen
      refine ⟨(AlignedReads_cons _ _).2 ⟨⟨rfl, by omega, by omega⟩, ?_, ih1⟩, ?_⟩
      · intro hne
        have hd : p.drop 4096 ≠ [] := by
          intro hd
          apply hne
          rw [hd, fullReads_unfold]
          rfl
        have hd2 : 0 < (p.drop 4096).length := List.length_pos.2 hd
        rw [List.length_drop] at hd2
        show (p.take 4096).length % 8 = 0
        omega
      · rw [readData_cons, ih2]
        exact List.take_append_drop 4096 p

theorem regularFile_aligned (p : List Nat) :
    NoFileError (regularFile p) ∧ AlignedReads (regularFile p).reads ∧
      readData (regularFile p).reads = p :=
  ⟨⟨rfl, rfl, by simp [regularFile]⟩, (fullReads_aligned _ p rfl).1,
    (fullReads_aligned _ p rfl).2⟩

set_option maxRecDepth 100000 in
/-- Reads that are not block aligned give another ciphertext: with the key `0, ..., 31` and
the nonce of eight bytes 255, the nine bytes `ABCDEFGHI` delivered by reads of 5 and 4
bytes are encrypted differently from the same bytes delivered by one read, and decrypting
the former by one read does not give the plaintext back. -/
theorem short_reads_change_output :
    (match NewMGM (List.range 32) (List.replicate 8 255) with
      | some (Except.ok m) =>
        (EncryptFile m
          { openErr := none, createErr := none,
            reads := [{ bytes := [65, 66, 67, 68, 69], err := ReadErr.nil },
              { bytes := [70, 71, 72, 73], err := ReadErr.eof }],
            writes := [] }).map fun r => r.written
      | _ => none) = some [122, 102, 158, 253, 35, 118, 88, 71, 76] ∧
    (match NewMGM (List.range 32) (List.replicate 8 255) with
      | some (Except.ok m) =>
        (EncryptFile m
          { openErr := none, createErr := none,
            reads := [{ bytes := [65, 66, 67, 68, 69, 70, 71, 72, 73], err := ReadErr.eof }],
            writes := [] }).map fun r => r.written
      | _ => none) = some [122, 102, 158, 253, 35, 236, 111, 135, 121] ∧
    (match NewMGM (List.range 32) (List.replicate 8 255) with
      | some (Except.ok m) =>
        (DecryptFile m
          { openErr := none, createErr := none,
            reads :=
              [{ bytes := [122, 102, 158, 253, 35, 118, 88, 71, 76], err := ReadErr.eof }],
            writes := [] }).map fun r => r.written
      | _ => none) = some [65, 66, 67, 68, 69, 220, 112, 136, 124] := by
  decide

/-! ## The loop of processBlocks in closed form -/

theorem EncryptBlock_counter (E : MagmaCore) (dst : List Nat) (N j : Nat)
    (hd : dst.length = 8) :
    EncryptBlock E dst (bytes64 ((N + j + 1) % 2 ^ 64)) = some (keystreamBlock E N j) := by
  unfold keystreamBlock
  rw [EncryptBlock_block E dst _ (by simp [bytes64_length]) hd,
    EncryptBlock_block E (List.replicate 8 0) _ (by simp [bytes64_length]) (by simp)]
  rfl

theorem keystreamBlock_length (E : MagmaCore) (N j : Nat) :
    (keystreamBlock E N j).length = 8 :=
  EncryptBlock_length E (List.replicate 8 0) _ _ (by simp)
    (EncryptBlock_counter E (List.replicate 8 0) N j (by simp))

theorem stateAfter_lengths (m : MGM) (k : Nat) (hn : m.nonce.length = 8)
    (hb : m.buffer.length = 8) :
    (stateAfter m k).nonce.length = 8 ∧ (stateAfter m k).buffer.length = 8 := by
  unfold stateAfter
  split
  · exact ⟨hn, hb⟩
  · exact ⟨bytes64_length _, keystreamBlock_length _ _ _⟩

theorem stateAfter_succ (m : MGM) (k : Nat) :
    stateAfter m (k + 1)
      = { m with
          nonce := bytes64 ((Uint64 m.nonce + (k + 8) / 8) % 2 ^ 64)
          buffer := keystreamBlock m.E (Uint64 m.nonce) (k / 8) } := by
  have e1 : (k + 1 + 7) / 8 = (k + 8) / 8 := by omega
  have e2 : (k + 1 - 1) / 8 = k / 8 := by simp
  unfold stateAfter
  rw [if_neg (Nat.succ_ne_zero k), e1, e2]

theorem incCounter_eq (m : MGM) (hn : m.nonce.length = 8) :
    incCounter m = some { m with nonce := bytes64 ((Uint64 m.nonce + 1) % 2 ^ 64) } := by
  have h1 : ¬ m.nonce.length < 8 := by omega
  have h2 : m.nonce.drop 8 = [] := List.drop_of_length_le (by omega)
  simp [incCounter, h1, PutUint64, h2]

theorem advance_boundary (m : MGM) (i : Nat) (hi : i % 8 = 0) (hn : m.nonce.length = 8)
    (hb : m.buffer.length = 8) :
    advance m i
      = some { m with
          nonce := bytes64 ((Uint64 m.nonce + 1) % 2 ^ 64)
          buffer := keystreamBlock m.E (Uint64 m.nonce) 0 } := by
  have h1 : i % BlockSize = 0 := hi
  have h2 := EncryptBlock_counter m.E m.buffer (Uint64 m.nonce) 0 hb
  simp only [Nat.add_zero] at h2
  simp only [advance, h1, if_true, incCounter_eq m hn, Option.some_bind, h2, Option.map_some']

theorem advance_stateAfter (m : MGM) (k : Nat) (hn : m.nonce.length = 8)
    (hb : m.buffer.length = 8) :
    advance (stateAfter m k) k = some (stateAfter m (k + 1)) := by
  by_cases hk : k % 8 = 0
  · obtain ⟨hn2, hb2⟩ := stateAfter_lengths m k hn hb
    rw [advance_boundary _ k hk hn2 hb2, stateAfter_succ]
    by_cases h0 : k = 0
    · subst h0
      rfl
    · have e1 : ((Uint64 m.nonce + (k + 7) / 8) % 2 ^ 64 % 2 ^ 64 + 1) % 2 ^ 64
          = (Uint64 m.nonce + (k + 8) / 8) % 2 ^ 64 := by omega
      have e2 : keystreamBlock m.E ((Uint64 m.nonce + (k + 7) / 8) % 2 ^ 64 % 2 ^ 64) 0
          = keystreamBlock m.E (Uint64 m.nonce) (k / 8) := by
        unfold keystreamBlock
        congr 3
        omega
      simp only [stateAfter, h0, if_false, Uint64_bytes64, e1, e2]
  · have h1 : ¬ k % BlockSize = 0 := hk
    have h0 : k ≠ 0 := by
      intro h
      rw [h] at hk
      exact hk rfl
    have e1 : (k + 8) / 8 = (k + 7) / 8 := by omega
    have e2 : k / 8 = (k - 1) / 8 := by omega
    rw [stateAfter_succ]
    simp only [advance, h1, if_false, e1, e2, stateAfter, h0]

theorem outputAfter_succ (E : MagmaCore) (N : Nat) (src dst : List Nat) (k : Nat) :
    outputAfter E N src dst (k + 1)
      = (outputAfter E N src dst k).set k (src.getD k 0 ^^^ keystreamByte E N k) := by
  simp [outputAfter, List.range_succ, List.foldl_append]

theorem outputAfter_length (E : MagmaCore) (N : Nat) (src dst : List Nat) (k : Nat) :
    (outputAfter E N src dst k).length = dst.length := by
  induction k with
  | zero => rfl
  | succ k ih => rw [outputAfter_succ, List.length_set, ih]

theorem outputAfter_getElem? (E : MagmaCore) (N : Nat) (src dst : List Nat) (k j : Nat) :
    (outputAfter E N src dst k)[j]?
      = if j < k ∧ j < dst.length then some (src.getD j 0 ^^^ keystreamByte E N j)
        else dst[j]? := by
  induction k with
  | zero => simp [outputAfter]
  | succ k ih =>
    rw [outputAfter_succ, List.getElem?_set, outputAfter_length, ih]
    by_cases hjk : k = j
    · subst hjk
      by_cases hlen : k < dst.length
      · simp [hlen]
      · simp [hlen, List.getElem?_eq_none (Nat.le_of_not_lt hlen)]
    · by_cases hlt : j < k
      · have : j < k + 1 := by omega
        simp [hjk, hlt, this]
      · have : ¬ j < k + 1 := by omega
        simp [hjk, hlt, this]

theorem store_stateAfter (m : MGM) (src d : List Nat) (k : Nat) (hk : k < src.length) :
    store src (stateAfter m (k + 1)) d k
      = some (stateAfter m (k + 1),
          d.set k (src.getD k 0 ^^^ keystreamByte m.E (Uint64 m.nonce) k)) := by
  have hlen : (keystreamBlock m.E (Uint64 m.nonce) (k / 8)).length = 8 :=
    keystreamBlock_length _ _ _
  have hmod : k % 8 < (keystreamBlock m.E (Uint64 m.nonce) (k / 8)).length := by
    rw [hlen]
    omega
  by_cases hlt : k < d.length
  · simp only [store, hlt, if_true, stateAfter_succ, BlockSize,
      List.getElem?_eq_getElem hk, List.getElem?_eq_getElem hmod, keystreamByte,
      List.getD_eq_getElem?_getD, Option.getD_some]
  · simp only [store, hlt, if_false, List.set_eq_of_length_le (Nat.le_of_not_lt hlt)]

/-- The state of the loop after `k` iterations, for a processor whose counter and buffer
are 8 bytes long. -/
theorem foldlM_step_eq (m : MGM) (dst src : List Nat) (hn : m.nonce.length = 8)
    (hb : m.buffer.length = 8) (k : Nat) (hk : k ≤ src.length) :
    (List.range k).foldlM (processBlocksStep src) (m, dst)
      = some (stateAfter m k, outputAfter m.E (Uint64 m.nonce) src dst k) := by
  induction k with
  | zero => rfl
  | succ k ih =>
    rw [List.range_succ, List.foldlM_append, ih (by omega)]
    simp only [Option.some_bind, Option.bind_eq_bind, List.foldlM_cons, List.foldlM_nil]
    rw [processBlocksStep_eq, advance_stateAfter m k hn hb]
    simp only [Option.some_bind, Option.bind_eq_bind]
    rw [store_stateAfter m src _ k (by omega), outputAfter_succ]
    rfl

theorem processBlocks_eq (m : MGM) (dst src : List Nat) (hn : m.nonce.length = 8)
    (hb : m.buffer.length = 8) :
    processBlocks m dst src
      = some (stateAfter m src.length,
          outputAfter m.E (Uint64 m.nonce) src dst src.length) :=
  foldlM_step_eq m dst src hn hb src.length (le_refl _)

/-! ## The stream mode -/

theorem outputAfter_getD (E : MagmaCore) (N : Nat) (src dst : List Nat) (k j : Nat)
    (hj : j < k) (hd : j < dst.length) :
    (outputAfter E N src dst k).getD j 0 = src.getD j 0 ^^^ keystreamByte E N j := by
  rw [List.getD_eq_getElem?_getD, outputAfter_getElem?, if_pos ⟨hj, hd⟩, Option.getD_some]

/-- Masking twice with the same keystream gives the input back. -/
theorem outputAfter_twice (E : MagmaCore) (N : Nat) (p : List Nat) :
    outputAfter E N (outputAfter E N p (List.replicate p.length 0) p.length)
      (List.replicate p.length 0) p.length = p := by
  apply List.ext_getElem?
  intro j
  rw [outputAfter_getElem?, List.length_replicate]
  by_cases hj : j < p.length
  · rw [if_pos ⟨hj, hj⟩, outputAfter_getD E N p _ _ j hj (by simp [hj]), Nat.xor_assoc,
      Nat.xor_self, Nat.xor_zero, List.getD_eq_getElem?_getD, List.getElem?_eq_getElem hj,
      Option.getD_some]
  · rw [if_neg (fun h => hj h.1), List.getElem?_eq_none (by simp; omega),
      List.getElem?_eq_none (by omega)]

theorem keystreamBlock_shift (E : MagmaCore) (N t j : Nat) :
    keystreamBlock E ((N + t) % 2 ^ 64) j = keystreamBlock E N (t + j) := by
  unfold keystreamBlock
  congr 3
  omega

theorem Uint64_lt (b : List Nat) (hlen : b.length = 8) (hb : ∀ x ∈ b, x < 256) :
    Uint64 b < 2 ^ 64 := by
  obtain ⟨s0, s1, s2, s3, s4, s5, s6, s7, rfl⟩ := eq_of_length_eight b hlen
  simp only [List.mem_cons, List.mem_singleton, List.not_mem_nil, or_false,
    forall_eq_or_imp, forall_eq] at hb
  simp only [Uint64, List.getD_cons_zero, List.getD_cons_succ]
  omega

theorem stateAfter_fields (m : MGM) (k : Nat) :
    (stateAfter m k).E = m.E ∧ (stateAfter m k).H = m.H := by
  unfold stateAfter
  split <;> exact ⟨rfl, rfl⟩

theorem stateAfter_counter (m : MGM) (k : Nat) (h : Uint64 m.nonce < 2 ^ 64) :
    Uint64 (stateAfter m k).nonce = (Uint64 m.nonce + (k + 7) / 8) % 2 ^ 64 := by
  unfold stateAfter
  split
  · next h0 =>
    subst h0
    simp only [Nat.zero_add, Nat.reduceDiv, Nat.add_zero]
    exact (Nat.mod_eq_of_lt h).symm
  · simp only [Uint64_bytes64, Nat.mod_mod]

/-- C2: on a processor freshly built from a 32-byte key and an 8-byte nonce,
`processBlocks` with a destination as long as the input `p` returns an output as long as
`p` whose byte `i` is `p[i] XOR B[i mod 8]`, where `B` is `EncryptBlock` under the key of
the little-endian bytes of `(N + i/8 + 1) mod 2^64` and `N` is the little-endian value of
the nonce. -/
theorem processBlocks_keystream (key nonce p dst : List Nat) (hk : key.length = 32)
    (hn : nonce.length = 8) (hd : dst.length = p.length) :
    ∃ core m mfinal out, NewMagmaCore key = Except.ok core ∧
      NewMGM key nonce = some (Except.ok m) ∧
      processBlocks m dst p = some (mfinal, out) ∧ out.length = p.length ∧
      ∀ i, i < p.length →
        ∃ B, EncryptBlock core (List.replicate 8 0)
              (bytes64 ((Uint64 nonce + i / 8 + 1) % 2 ^ 64)) = some B ∧
          B.length = 8 ∧ out[i]? = some (p.getD i 0 ^^^ B.getD (i % 8) 0) := by
  obtain ⟨core, c, h1, h2, h3⟩ := NewMGM_ok key nonce hk hn
  have hc : c.length = 8 := EncryptBlock_length core _ _ c (by simp) h2
  refine ⟨core, _, _, _, h1, h3, processBlocks_eq _ dst p hn hc, ?_, ?_⟩
  · rw [outputAfter_length, hd]
  · intro i hi
    refine ⟨keystreamBlock core (Uint64 nonce) (i / 8),
      EncryptBlock_counter core _ _ _ (by simp), keystreamBlock_length _ _ _, ?_⟩
    rw [outputAfter_getElem?, if_pos ⟨hi, by omega⟩]
    rfl

theorem processBlocks_keystream_witness :
    ∃ core m mfinal out, NewMagmaCore (List.range 32) = Except.ok core ∧
      NewMGM (List.range 32) (List.replicate 8 255) = some (Except.ok m) ∧
      processBlocks m (List.replicate 9 0) [65, 66, 67, 68, 69, 70, 71, 72, 73]
        = some (mfinal, out) ∧
      out.length = [65, 66, 67, 68, 69, 70, 71, 72, 73].length ∧
      ∀ i, i < [65, 66, 67, 68, 69, 70, 71, 72, 73].length →
        ∃ B, EncryptBlock core (List.replicate 8 0)
              (bytes64 ((Uint64 (List.replicate 8 255) + i / 8 + 1) % 2 ^ 64)) = some B ∧
          B.length = 8 ∧
          out[i]? = some ([65, 66, 67, 68, 69, 70, 71, 72, 73].getD i 0 ^^^ B.getD (i % 8) 0) :=
  processBlocks_keystream (List.range 32) (List.replicate 8 255)
    [65, 66, 67, 68, 69, 70, 71, 72, 73] (List.replicate 9 0) (by decide) (by decide)
    (by decide)

/-- C1: for every 32-byte key, 8-byte nonce and input `p`: when the reads of the encrypting
run deliver `p` in block-aligned pieces (every read but the last returns a multiple of 8
bytes, as reads that fill the 4096-byte buffer do) and no file operation fails,
`EncryptFile` from the processor built by `NewMGM` writes a ciphertext as long as `p`, and
`DecryptFile` from a processor freshly built by the same call, on any block-aligned reads
of that ciphertext, writes exactly `p`; in particular this holds for every `p` when both
files are read by full 4096-byte buffers. -/
theorem file_round_trip (key nonce p : List Nat) (hk : key.length = 32)
    (hn : nonce.length = 8) :
    (∀ fs1 : FileEnv, NoFileError fs1 → AlignedReads fs1.reads → readData fs1.reads = p →
      ∃ m run1, NewMGM key nonce = some (Except.ok m) ∧ EncryptFile m fs1 = some run1 ∧
        run1.err = none ∧ run1.written.length = p.length ∧
        ∀ fs2 : FileEnv, NoFileError fs2 → AlignedReads fs2.reads →
          readData fs2.reads = run1.written →
          ∃ run2, DecryptFile m fs2 = some run2 ∧ run2.err = none ∧ run2.written = p) ∧
    (∃ m run1 run2, NewMGM key nonce = some (Except.ok m) ∧
      EncryptFile m (regularFile p) = some run1 ∧ run1.err = none ∧
      DecryptFile m (regularFile run1.written) = some run2 ∧ run2.err = none ∧
      run2.written = p) := by
  obtain ⟨core, c0, _, h2, h3⟩ := NewMGM_ok key nonce hk hn
  have hc : c0.length = 8 := EncryptBlock_length core _ _ c0 (by simp) h2
  have hlen : (outputAfter core (Uint64 nonce) p (List.replicate p.length 0) p.length).length
      = p.length := by
    rw [outputAfter_length, List.length_replicate]
  have main : ∀ fs1 : FileEnv, NoFileError fs1 → AlignedReads fs1.reads →
      readData fs1.reads = p →
      EncryptFile { E := core, H := Uint64 c0, nonce := nonce, buffer := c0 } fs1
          = some
            { mgm := stateAfter { E := core, H := Uint64 c0, nonce := nonce, buffer := c0 }
                p.length,
              written := outputAfter core (Uint64 nonce) p (List.replicate p.length 0) p.length,
              err := none } ∧
        ∀ fs2 : FileEnv, NoFileError fs2 → AlignedReads fs2.reads →
          readData fs2.reads
            = outputAfter core (Uint64 nonce) p (List.replicate p.length 0) p.length →
          DecryptFile { E := core, H := Uint64 c0, nonce := nonce, buffer := c0 } fs2
            = some
              { mgm := stateAfter { E := core, H := Uint64 c0, nonce := nonce, buffer := c0 }
                  p.length,
                written := p, err := none } := by
    intro fs1 he1 hr1 hd1
    constructor
    · rw [EncryptFile_aligned _ fs1 he1 hr1, hd1, processBlocks_eq _ _ p hn hc]
      rfl
    · intro fs2 he2 hr2 hd2
      rw [DecryptFile_aligned _ fs2 he2 hr2, hd2, processBlocks_eq _ _ _ hn hc, hlen]
      simp only [Option.map_some', outputAfter_twice]
  constructor
  · intro fs1 he1 hr1 hd1
    obtain ⟨e1, e2⟩ := main fs1 he1 hr1 hd1
    refine ⟨_, _, h3, e1, rfl, hlen, ?_⟩
    intro fs2 he2 hr2 hd2
    exact ⟨_, e2 fs2 he2 hr2 hd2, rfl, rfl⟩
  · obtain ⟨he1, hr1, hd1⟩ := regularFile_aligned p
    obtain ⟨e1, e2⟩ := main (regularFile p) he1 hr1 hd1
    obtain ⟨he2, hr2, hd2⟩ := regularFile_aligned
      (outputAfter core (Uint64 nonce) p (List.replicate p.length 0) p.length)
    exact ⟨_, _, _, h3, e1, rfl, e2 _ he2 hr2 hd2, rfl, rfl⟩

theorem file_round_trip_witness :
    (∃ m run1, NewMGM (List.range 32) (List.replicate 8 255) = some (Except.ok m) ∧
      EncryptFile m
          { openErr := none, createErr := none,
            reads := [{ bytes := [65, 66, 67, 68, 69, 70, 71, 72], err := ReadErr.nil },
              { bytes := [73], err := ReadErr.eof }],
            writes := [none, none] } = some run1 ∧
      run1.err = none ∧ run1.written.length = [65, 66, 67, 68, 69, 70, 71, 72, 73].length ∧
      ∀ fs2 : FileEnv, NoFileError fs2 → AlignedReads fs2.reads →
        readData fs2.reads = run1.written →
        ∃ run2, DecryptFile m fs2 = some run2 ∧ run2.err = none ∧
          run2.written = [65, 66, 67, 68, 69, 70, 71, 72, 73]) ∧
    (∃ m run1 run2, NewMGM (List.range 32) (List.replicate 8 255) = some (Except.ok m) ∧
      EncryptFile m (regularFile [65, 66, 67, 68, 69, 70, 71, 72, 73]) = some run1 ∧
      run1.err = none ∧
      DecryptFile m (regularFile run1.written) = some run2 ∧ run2.err = none ∧
      run2.written = [65, 66, 67, 68, 69, 70, 71, 72, 73]) :=
  ⟨(file_round_trip (List.range 32) (List.replicate 8 255)
      [65, 66, 67, 68, 69, 70, 71, 72, 73] (by decide) (by decide)).1
      { openErr := none, createErr := none,
        reads := [{ bytes := [65, 66, 67, 68, 69, 70, 71, 72], err := ReadErr.nil },
          { bytes := [73], err := ReadErr.eof }],
        writes := [none, none] } (by decide) (by decide) (by decide),
   (file_round_trip (List.range 32) (List.replicate 8 255)
      [65, 66, 67, 68, 69, 70, 71, 72, 73] (by decide) (by decide)).2⟩

/-- C7: for every processor state and inputs `a`, `b` with `len(a)` a multiple of 8,
`processBlocks` on `a` followed by `processBlocks` on `b` agrees with one call on
`a ++ b` from the same state: equal concatenated output and equal final processor (so
equal counter), also when a call panics; with an 8-byte counter and buffer all three calls
return; and when no file operation fails and every read but the last returns a multiple of
8 bytes (as reads that fill the 4096-byte buffer do, for every input), the file driver
writes what one `processBlocks` call on the whole input returns. -/
theorem processBlocks_chunking (m : MGM) (a b d1 d2 : List Nat) (ha : a.length % 8 = 0)
    (hd : d1.length = a.length) :
    processBlocks m (d1 ++ d2) (a ++ b)
      = ((processBlocks m d1 a).bind fun r =>
          (processBlocks r.1 d2 b).map fun r2 => (r2.1, r.2 ++ r2.2)) ∧
    (m.nonce.length = 8 → m.buffer.length = 8 →
      ∃ m1 o1 m2 o2, processBlocks m d1 a = some (m1, o1) ∧
        processBlocks m1 d2 b = some (m2, o2) ∧
        processBlocks m (d1 ++ d2) (a ++ b) = some (m2, o1 ++ o2)) ∧
    (∀ fs : FileEnv, NoFileError fs → AlignedReads fs.reads →
      EncryptFile m fs
        = (processBlocks m (List.replicate (readData fs.reads).length 0)
            (readData fs.reads)).map
              (fun r => { mgm := r.1, written := r.2, err := none }) ∧
      DecryptFile m fs
        = (processBlocks m (List.replicate (readData fs.reads).length 0)
            (readData fs.reads)).map
              (fun r => { mgm := r.1, written := r.2, err := none })) ∧
    (∀ input, NoFileError (regularFile input) ∧ AlignedReads (regularFile input).reads ∧
      readData (regularFile input).reads = input) := by
  refine ⟨processBlocks_append m a b d1 d2 ha hd, ?_, ?_, regularFile_aligned⟩
  · intro hn hb
    obtain ⟨hn1, hb1⟩ := stateAfter_lengths m a.length hn hb
    have e1 := processBlocks_eq m d1 a hn hb
    have e2 := processBlocks_eq (stateAfter m a.length) d2 b hn1 hb1
    refine ⟨_, _, _, _, e1, e2, ?_⟩
    rw [processBlocks_append m a b d1 d2 ha hd, e1]
    simp only [Option.some_bind, e2, Option.map_some']
  · intro fs he hr
    exact ⟨EncryptFile_aligned m fs he hr, DecryptFile_aligned m fs he hr⟩

theorem processBlocks_chunking_witness :
    (∃ m1 o1 m2 o2,
      processBlocks
          { E := { subkeys := List.range 32 }, H := 0, nonce := List.replicate 8 255,
            buffer := List.replicate 8 0 }
          (List.replicate 8 0) [1, 2, 3, 4, 5, 6, 7, 8] = some (m1, o1) ∧
        processBlocks m1 (List.replicate 3 0) [9, 10, 11] = some (m2, o2) ∧
        processBlocks
          { E := { subkeys := List.range 32 }, H := 0, nonce := List.replicate 8 255,
            buffer := List.replicate 8 0 }
          (List.replicate 8 0 ++ List.replicate 3 0) ([1, 2, 3, 4, 5, 6, 7, 8] ++ [9, 10, 11])
          = some (m2, o1 ++ o2)) ∧
    EncryptFile
        { E := { subkeys := List.range 32 }, H := 0, nonce := List.replicate 8 255,
          buffer := List.replicate 8 0 }
        { openErr := none, createErr := none,
          reads := [{ bytes := [1, 2, 3, 4, 5, 6, 7, 8], err := ReadErr.nil },
            { bytes := [9, 10, 11], err := ReadErr.nil }],
          writes := [] }
      = (processBlocks
          { E := { subkeys := List.range 32 }, H := 0, nonce := List.replicate 8 255,
            buffer := List.replicate 8 0 }
          (List.replicate
            (readData [{ bytes := [1, 2, 3, 4, 5, 6, 7, 8], err := ReadErr.nil },
              { bytes := [9, 10, 11], err := ReadErr.nil }]).length 0)
          (readData [{ bytes := [1, 2, 3, 4, 5, 6, 7, 8], err := ReadErr.nil },
            { bytes := [9, 10, 11], err := ReadErr.nil }])).map
            (fun r => { mgm := r.1, written := r.2, err := none }) :=
  ⟨(processBlocks_chunking
      { E := { subkeys := List.range 32 }, H := 0, nonce := List.replicate 8 255,
        buffer := List.replicate 8 0 }
      [1, 2, 3, 4, 5, 6, 7, 8] [9, 10, 11] (List.replicate 8 0) (List.replicate 3 0)
      (by decide) (by decide)).2.1 (by decide) (by decide),
   ((processBlocks_chunking
      { E := { subkeys := List.range 32 }, H := 0, nonce := List.replicate 8 255,
        buffer := List.replicate 8 0 }
      [1, 2, 3, 4, 5, 6, 7, 8] [9, 10, 11] (List.replicate 8 0) (List.replicate 3 0)
      (by decide) (by decide)).2.2.1
      { openErr := none, createErr := none,
        reads := [{ bytes := [1, 2, 3, 4, 5, 6, 7, 8], err := ReadErr.nil },
          { bytes := [9, 10, 11], err := ReadErr.nil }],
        writes := [] } (by decide) (by decide)).1⟩

/-- C8: for a processor whose counter is 8 bytes with little-endian value `C`, after
`processBlocks` on `n` input bytes the counter is `(C + ceil(n/8)) mod 2^64` (written
`(n + 7) / 8`), and the round-key schedule and `H` are unchanged; a second call on the
same processor uses the keystream blocks that follow those of the first call; and for
`n = 0` the processor and the destination are left exactly as they were, an empty
destination giving an empty output. -/
theorem processBlocks_counter (m : MGM) (dst src : List Nat) (hn : m.nonce.length = 8)
    (hb : m.buffer.length = 8) (hbytes : ∀ x ∈ m.nonce, x < 256) :
    (∃ m1 out, processBlocks m dst src = some (m1, out) ∧
      Uint64 m1.nonce = (Uint64 m.nonce + (src.length + 7) / 8) % 2 ^ 64 ∧
      m1.nonce.length = 8 ∧ m1.E = m.E ∧ m1.H = m.H ∧
      ∀ dst2 src2, ∃ m2 out2, processBlocks m1 dst2 src2 = some (m2, out2) ∧
        Uint64 m2.nonce
          = (Uint64 m.nonce + (src.length + 7) / 8 + (src2.length + 7) / 8) % 2 ^ 64 ∧
        ∀ i, i < src2.length → i < dst2.length →
          out2[i]? = some (src2.getD i 0 ^^^
            (keystreamBlock m.E (Uint64 m.nonce) ((src.length + 7) / 8 + i / 8)).getD
              (i % 8) 0)) ∧
    processBlocks m dst [] = some (m, dst) ∧
    processBlocks m [] [] = some (m, []) := by
  have hC : Uint64 m.nonce < 2 ^ 64 := Uint64_lt m.nonce hn hbytes
  obtain ⟨hn1, hb1⟩ := stateAfter_lengths m src.length hn hb
  have hc1 := stateAfter_counter m src.length hC
  have hlt1 : Uint64 (stateAfter m src.length).nonce < 2 ^ 64 := by
    rw [hc1]
    exact Nat.mod_lt _ (by norm_num)
  refine ⟨⟨_, _, processBlocks_eq m dst src hn hb, hc1, hn1, (stateAfter_fields m _).1,
    (stateAfter_fields m _).2, ?_⟩, rfl, rfl⟩
  intro dst2 src2
  refine ⟨_, _, processBlocks_eq _ dst2 src2 hn1 hb1, ?_, ?_⟩
  · rw [stateAfter_counter _ _ hlt1, hc1]
    omega
  · intro i hi hi2
    rw [outputAfter_getElem?, if_pos ⟨hi, hi2⟩, keystreamByte, hc1, keystreamBlock_shift,
      (stateAfter_fields m _).1]

theorem processBlocks_counter_witness :
    (∃ m1 out,
      processBlocks
          { E := { subkeys := List.range 32 }, H := 0, nonce := List.replicate 8 255,
            buffer := List.replicate 8 0 }
          (List.replicate 9 0) [1, 2, 3, 4, 5, 6, 7, 8, 9] = some (m1, out) ∧
      Uint64 m1.nonce = (Uint64 (List.replicate 8 255) + (9 + 7) / 8) % 2 ^ 64) :=
  match (processBlocks_counter
      { E := { subkeys := List.range 32 }, H := 0, nonce := List.replicate 8 255,
        buffer := List.replicate 8 0 }
      (List.replicate 9 0) [1, 2, 3, 4, 5, 6, 7, 8, 9] (by decide) (by decide)
      (by decide)).1 with
  | ⟨m1, out, h1, h2, _⟩ => ⟨m1, out, h1, h2⟩

/-! ## The buffer contract of EncryptBlock -/

theorem Uint32_halves_take (src : List Nat) :
    Uint32 (src.take 4) = Uint32 ((src.take 8).take 4) ∧
    Uint32 (src.drop 4) = Uint32 ((src.take 8).drop 4) := by
  constructor
  · rw [List.take_take]
    rfl
  · simp [Uint32, List.getD_eq_getElem?_getD, List.getElem?_drop, List.getElem?_take]

theorem EncryptBlock_eq_none_iff (m : MagmaCore) (dst src : List Nat) :
    EncryptBlock m dst src = none ↔ (src.length < 8 ∨ dst.length < 8) := by
  by_cases hs : src.length < 8
  · simp [EncryptBlock, BlockSize, hs]
  · by_cases hd : dst.length < 8
    · simp [EncryptBlock, BlockSize, hs, hd]
    · rw [EncryptBlock_eq m dst src (by omega) (by omega)]
      simp [hs, hd]

theorem advance_E (m : MGM) (i : Nat) (m2 : MGM) (h : advance m i = some m2) :
    m2.E = m.E ∧ m2.H = m.H := by
  unfold advance at h
  split at h
  · unfold incCounter at h
    split at h
    · cases h
    · simp only [Option.some_bind] at h
      cases hb : EncryptBlock m.E m.buffer (PutUint64 m.nonce ((Uint64 m.nonce + 1) % 2 ^ 64)) with
      | none => rw [hb] at h; cases h
      | some buf =>
        rw [hb] at h
        cases h
        exact ⟨rfl, rfl⟩
  · cases h
    exact ⟨rfl, rfl⟩

/-- C11: `EncryptBlock` panics exactly when the source or the destination is shorter than
8 bytes; otherwise the destination keeps its length and every byte from index 8 on, the
8 bytes written depend only on the first 8 bytes of the source and on the round keys (not
on the destination or on later source bytes), and the step of `processBlocks` that calls
it leaves the round-key schedule of the processor as it was. -/
theorem EncryptBlock_buffer_contract (m : MagmaCore) (dst src : List Nat) :
    (EncryptBlock m dst src = none ↔ (src.length < 8 ∨ dst.length < 8)) ∧
    (8 ≤ src.length → 8 ≤ dst.length →
      ∃ out, EncryptBlock m dst src = some out ∧ out.length = dst.length ∧
        out.drop 8 = dst.drop 8 ∧
        ∀ dst2 src2, 8 ≤ dst2.length → src2.take 8 = src.take 8 →
          ∃ out2, EncryptBlock m dst2 src2 = some out2 ∧ out2.take 8 = out.take 8) ∧
    (∀ mgm i mgm2, advance mgm i = some mgm2 → mgm2.E = mgm.E) := by
  refine ⟨EncryptBlock_eq_none_iff m dst src, ?_, fun mgm i mgm2 h => (advance_E mgm i mgm2 h).1⟩
  intro hs hd
  refine ⟨_, EncryptBlock_eq m dst src hs hd, ?_, ?_, ?_⟩
  · simp only [List.length_append, bytes32_length, List.length_drop]
    omega
  · rw [List.drop_append_of_le_length (by simp [bytes32_length])]
    simp [bytes32_length]
  · intro dst2 src2 hd2 htake
    have hs2 : 8 ≤ src2.length := by
      have h1 : (src2.take 8).length = (src.take 8).length := by rw [htake]
      rw [List.length_take, List.length_take] at h1
      omega
    refine ⟨_, EncryptBlock_eq m dst2 src2 hs2 hd2, ?_⟩
    have key : ∀ (u v : Nat) (t : List Nat),
        List.take 8 (bytes32 u ++ bytes32 v ++ t) = bytes32 u ++ bytes32 v := by
      intro u v t
      have hlen : (bytes32 u ++ bytes32 v).length = 8 := rfl
      rw [List.take_append_of_le_length (by omega), List.take_of_length_le (by omega)]
    rw [(Uint32_halves_take src).1, (Uint32_halves_take src).2, (Uint32_halves_take src2).1,
      (Uint32_halves_take src2).2, htake, key, key]

theorem EncryptBlock_buffer_contract_witness :
    ∃ out, EncryptBlock { subkeys := List.range 32 } (List.replicate 10 9)
        [1, 2, 3, 4, 5, 6, 7, 8, 9] = some out ∧
      out.length = (List.replicate 10 9).length ∧
      out.drop 8 = (List.replicate 10 9).drop 8 ∧
      ∀ dst2 src2, 8 ≤ dst2.length →
        src2.take 8 = [1, 2, 3, 4, 5, 6, 7, 8, 9].take 8 →
        ∃ out2, EncryptBlock { subkeys := List.range 32 } dst2 src2 = some out2 ∧
          out2.take 8 = out.take 8 :=
  (EncryptBlock_buffer_contract { subkeys := List.range 32 } (List.replicate 10 9)
    [1, 2, 3, 4, 5, 6, 7, 8, 9]).2.1 (by decide) (by decide)

/-! ## The substitution table and the round function as a bijection -/

theorem sBoxAt_injective :
    ∀ i < 8, ∀ a < 16, ∀ b < 16, sBoxAt i a = sBoxAt i b → a = b := by decide

theorem substNibbles_expand (v : Nat) :
    substNibbles v
      = sBoxAt 0 (v % 16) + (sBoxAt 1 (v / 16 % 16) * 16 + (sBoxAt 2 (v / 256 % 16) * 256
        + (sBoxAt 3 (v / 4096 % 16) * 4096 + (sBoxAt 4 (v / 65536 % 16) * 65536
        + (sBoxAt 5 (v / 1048576 % 16) * 1048576 + (sBoxAt 6 (v / 16777216 % 16) * 16777216
        + sBoxAt 7 (v / 268435456 % 16) * 268435456)))))) := by
  simp [substNibbles, nibble, List.range, List.range.loop]

theorem substNibbles_injective (v w : Nat) (hv : v < 2 ^ 32) (hw : w < 2 ^ 32)
    (h : substNibbles v = substNibbles w) : v = w := by
  rw [substNibbles_expand, substNibbles_expand] at h
  have m16 : ∀ x : Nat, x % 16 < 16 := fun x => Nat.mod_lt _ (by norm_num)
  have a0 := sBoxAt_lt 0 (by norm_num) _ (m16 v)
  have a1 := sBoxAt_lt 1 (by norm_num) _ (m16 (v / 16))
  have a2 := sBoxAt_lt 2 (by norm_num) _ (m16 (v / 256))
  have a3 := sBoxAt_lt 3 (by norm_num) _ (m16 (v / 4096))
  have a4 := sBoxAt_lt 4 (by norm_num) _ (m16 (v / 65536))
  have a5 := sBoxAt_lt 5 (by norm_num) _ (m16 (v / 1048576))
  have a6 := sBoxAt_lt 6 (by norm_num) _ (m16 (v / 16777216))
  have a7 := sBoxAt_lt 7 (by norm_num) _ (m16 (v / 268435456))
  have b0 := sBoxAt_lt 0 (by norm_num) _ (m16 w)
  have b1 := sBoxAt_lt 1 (by norm_num) _ (m16 (w / 16))
  have b2 := sBoxAt_lt 2 (by norm_num) _ (m16 (w / 256))
  have b3 := sBoxAt_lt 3 (by norm_num) _ (m16 (w / 4096))
  have b4 := sBoxAt_lt 4 (by norm_num) _ (m16 (w / 65536))
  have b5 := sBoxAt_lt 5 (by norm_num) _ (m16 (w / 1048576))
  have b6 := sBoxAt_lt 6 (by norm_num) _ (m16 (w / 16777216))
  have b7 := sBoxAt_lt 7 (by norm_num) _ (m16 (w / 268435456))
  have e0 := sBoxAt_injective 0 (by norm_num) _ (m16 v) _ (m16 w) (by omega)
  have e1 := sBoxAt_injective 1 (by norm_num) _ (m16 (v / 16)) _ (m16 (w / 16)) (by omega)
  have e2 := sBoxAt_injective 2 (by norm_num) _ (m16 (v / 256)) _ (m16 (w / 256)) (by omega)
  have e3 := sBoxAt_injective 3 (by norm_num) _ (m16 (v / 4096)) _ (m16 (w / 4096)) (by omega)
  have e4 := sBoxAt_injective 4 (by norm_num) _ (m16 (v / 65536)) _ (m16 (w / 65536))
    (by omega)
  have e5 := sBoxAt_injective 5 (by norm_num) _ (m16 (v / 1048576)) _ (m16 (w / 1048576))
    (by omega)
  have e6 := sBoxAt_injective 6 (by norm_num) _ (m16 (v / 16777216)) _ (m16 (w / 16777216))
    (by omega)
  have e7 := sBoxAt_injective 7 (by norm_num) _ (m16 (v / 268435456)) _
    (m16 (w / 268435456)) (by omega)
  omega

theorem rotl11_injective (v w : Nat) (hv : v < 2 ^ 32) (hw : w < 2 ^ 32)
    (h : rotl11 v = rotl11 w) : v = w := by
  unfold rotl11 at h
  omega

theorem f_injective (key x y : Nat) (hx : x < 2 ^ 32) (hy : y < 2 ^ 32)
    (h : f x key = f y key) : x = y := by
  rw [f_eq, f_eq] at h
  have h1 := rotl11_injective _ _ (substNibbles_lt _) (substNibbles_lt _) h
  have h2 := substNibbles_injective _ _ (Nat.mod_lt _ (by norm_num))
    (Nat.mod_lt _ (by norm_num)) h1
  omega

theorem f_surjective (key y : Nat) (hy : y < 2 ^ 32) : ∃ x, x < 2 ^ 32 ∧ f x key = y := by
  have hinj : Function.Injective (fun x : Fin (2 ^ 32) => (⟨f x key, f_lt x key⟩ : Fin (2 ^ 32))) := by
    intro a b hab
    have h1 : f a key = f b key := congrArg Fin.val hab
    exact Fin.ext (f_injective key a b a.isLt b.isLt h1)
  obtain ⟨x, hx⟩ := (Finite.injective_iff_surjective.1 hinj) ⟨y, hy⟩
  exact ⟨x, x.isLt, congrArg Fin.val hx⟩

/-- C17: each of the eight rows of `sBox` has sixteen entries and contains every value
`0..15` exactly once, and for every round key `f(., key)` is a bijection on 32-bit words:
it maps 32-bit words to 32-bit words, injectively, and reaches every 32-bit word. -/
theorem sBox_permutation_f_bijective :
    sBox.length = 8 ∧
    (∀ i, i < 8 → (sBox.getD i []).length = 16 ∧
      ∀ v, v < 16 → (sBox.getD i []).count v = 1) ∧
    (∀ key x, f x key < 2 ^ 32) ∧
    (∀ key x y, x < 2 ^ 32 → y < 2 ^ 32 → f x key = f y key → x = y) ∧
    (∀ key y, y < 2 ^ 32 → ∃ x, x < 2 ^ 32 ∧ f x key = y) := by
  refine ⟨rfl, by decide, fun key x => f_lt x key, f_injective, f_surjective⟩

theorem sBox_permutation_f_bijective_witness :
    (∃ x, x < 2 ^ 32 ∧ f x 4294967295 = 12345) ∧ (sBox.getD 3 []).count 7 = 1 :=
  ⟨sBox_permutation_f_bijective.2.2.2.2 4294967295 12345 (by decide),
   (sBox_permutation_f_bijective.2.1 3 (by decide)).2 7 (by decide)⟩

/-! ## Processors built by NewMGM -/

theorem bytes64_lt (v x : Nat) (h : x ∈ bytes64 v) : x < 256 := by
  simp only [bytes64, List.mem_cons, List.mem_singleton, List.not_mem_nil, or_false] at h
  omega

theorem bytes64_Uint64 (b : List Nat) (hb : IsBlock b) : bytes64 (Uint64 b) = b := by
  obtain ⟨hlen, hbytes⟩ := hb
  obtain ⟨s0, s1, s2, s3, s4, s5, s6, s7, rfl⟩ := eq_of_length_eight b hlen
  simp only [List.mem_cons, List.mem_singleton, List.not_mem_nil, or_false,
    forall_eq_or_imp, forall_eq] at hbytes
  simp only [Uint64, bytes64, List.getD_cons_zero, List.getD_cons_succ]
  refine congrArg₂ _ ?_ (congrArg₂ _ ?_ (congrArg₂ _ ?_ (congrArg₂ _ ?_ (congrArg₂ _ ?_
    (congrArg₂ _ ?_ (congrArg₂ _ ?_ (congrArg₂ _ ?_ rfl))))))) <;> omega

theorem bytes64_isBlock (v : Nat) : IsBlock (bytes64 v) :=
  ⟨rfl, bytes64_lt v⟩

/-- What a successful `NewMGM` tells about its arguments and its result. -/
theorem NewMGM_success (key nonce : List Nat) (m : MGM)
    (h : NewMGM key nonce = some (Except.ok m)) :
    key.length = 32 ∧ nonce.length = 8 ∧ m.nonce = nonce ∧ m.buffer.length = 8 ∧
      NewMagmaCore key = Except.ok m.E := by
  by_cases hn : nonce.length = 8
  · by_cases hk : key.length = 32
    · obtain ⟨core, c, h1, h2, h3⟩ := NewMGM_ok key nonce hk hn
      rw [h3] at h
      cases h
      exact ⟨hk, hn, rfl, EncryptBlock_length core _ _ c (by simp) h2, h1⟩
    · have e : NewMGM key nonce = some (Except.error "invalid key length") := by
        simp [NewMGM, NewMagmaCore, BlockSize, KeySize, hn, hk]
      rw [e] at h
      cases h
  · have e : NewMGM key nonce = some (Except.error "nonce must be 8 bytes") := by
      simp [NewMGM, BlockSize, hn]
    rw [e] at h
    cases h

theorem stateAfter_nonce_bytes (m : MGM) (k : Nat) (h : ∀ x ∈ m.nonce, x < 256) :
    ∀ x ∈ (stateAfter m k).nonce, x < 256 := by
  unfold stateAfter
  split
  · exact h
  · exact bytes64_lt _

/-- Every reachable processor has an 8-byte counter of bytes and an 8-byte buffer. -/
theorem Reachable_invariant (m : MGM) (h : Reachable m) :
    m.nonce.length = 8 ∧ m.buffer.length = 8 ∧ ∀ x ∈ m.nonce, x < 256 := by
  induction h with
  | new key nonce m hb hm =>
    obtain ⟨_, hn, hnonce, hbuf, _⟩ := NewMGM_success key nonce m hm
    rw [hnonce]
    exact ⟨hn, hbuf, hb⟩
  | step m dst src m2 out _ hp ih =>
    obtain ⟨hn, hb, hbytes⟩ := ih
    rw [processBlocks_eq m dst src hn hb] at hp
    cases hp
    obtain ⟨h1, h2⟩ := stateAfter_lengths m src.length hn hb
    exact ⟨h1, h2, stateAfter_nonce_bytes m _ hbytes⟩

/-- C19: on every processor obtained from a successful `NewMGM` on a nonce of bytes, and on
every processor reached from it by `processBlocks` calls, `processBlocks` returns for
sources and destinations of any lengths (no undersized buffer in `EncryptBlock`, no index
out of range); the destination keeps its length, its bytes below `min(len dst, len src)`
become source XOR keystream, its bytes from `len src` on are untouched, and the counter
advances by `ceil(len(src)/8)` modulo `2^64` whatever the length of the destination. -/
theorem processBlocks_panic_free (m : MGM) (hm : Reachable m) (dst src : List Nat) :
    ∃ m2 out, processBlocks m dst src = some (m2, out) ∧ Reachable m2 ∧
      out.length = dst.length ∧
      (∀ i, i < src.length → i < dst.length →
        out[i]? = some (src.getD i 0 ^^^
          (keystreamBlock m.E (Uint64 m.nonce) (i / 8)).getD (i % 8) 0)) ∧
      (∀ i, src.length ≤ i → out[i]? = dst[i]?) ∧
      Uint64 m2.nonce = (Uint64 m.nonce + (src.length + 7) / 8) % 2 ^ 64 := by
  obtain ⟨hn, hb, hbytes⟩ := Reachable_invariant m hm
  have hp := processBlocks_eq m dst src hn hb
  refine ⟨_, _, hp, Reachable.step m dst src _ _ hm hp, outputAfter_length _ _ _ _ _, ?_, ?_,
    stateAfter_counter m _ (Uint64_lt m.nonce hn hbytes)⟩
  · intro i h1 h2
    rw [outputAfter_getElem?, if_pos ⟨h1, h2⟩]
    rfl
  · intro i h1
    rw [outputAfter_getElem?, if_neg (fun h => absurd h.1 (by omega))]

theorem processBlocks_panic_free_witness :
    ∃ m, NewMGM (List.range 32) (List.replicate 8 255) = some (Except.ok m) ∧
      ∃ m2 out, processBlocks m [0, 0, 0] [1, 2, 3, 4, 5, 6, 7, 8, 9] = some (m2, out) ∧
        Reachable m2 ∧ out.length = [0, 0, 0].length ∧
        (∀ i, i < [1, 2, 3, 4, 5, 6, 7, 8, 9].length → i < [0, 0, 0].length →
          out[i]? = some ([1, 2, 3, 4, 5, 6, 7, 8, 9].getD i 0 ^^^
            (keystreamBlock m.E (Uint64 m.nonce) (i / 8)).getD (i % 8) 0)) ∧
        (∀ i, [1, 2, 3, 4, 5, 6, 7, 8, 9].length ≤ i → out[i]? = [0, 0, 0][i]?) ∧
        Uint64 m2.nonce
          = (Uint64 m.nonce + ([1, 2, 3, 4, 5, 6, 7, 8, 9].length + 7) / 8) % 2 ^ 64 :=
  match NewMGM_ok (List.range 32) (List.replicate 8 255) (by decide) (by decide) with
  | ⟨_, _, _, _, h3⟩ =>
    ⟨_, h3, processBlocks_panic_free _
      (Reachable.new (List.range 32) (List.replicate 8 255) _ (by decide) h3)
      [0, 0, 0] [1, 2, 3, 4, 5, 6, 7, 8, 9]⟩

/-! ## Keystream blocks under different nonces -/

theorem keystreamBlock_injective (E : MagmaCore) (N1 N2 j : Nat)
    (h : keystreamBlock E N1 j = keystreamBlock E N2 j) :
    (N1 + j + 1) % 2 ^ 64 = (N2 + j + 1) % 2 ^ 64 := by
  obtain ⟨K⟩ := E
  have hz : (List.replicate 8 0).length = 8 := by simp
  obtain ⟨c1, _, e1, d1⟩ := EncryptBlock_then_reverse K (reversedSchedule K)
    (reversedSchedule_getD K) (List.replicate 8 0) (List.replicate 8 0)
    (bytes64 ((N1 + j + 1) % 2 ^ 64)) hz hz (bytes64_isBlock _)
  obtain ⟨c2, _, e2, d2⟩ := EncryptBlock_then_reverse K (reversedSchedule K)
    (reversedSchedule_getD K) (List.replicate 8 0) (List.replicate 8 0)
    (bytes64 ((N2 + j + 1) % 2 ^ 64)) hz hz (bytes64_isBlock _)
  simp only [keystreamBlock, e1, e2, Option.getD_some] at h
  rw [h, d2] at d1
  have h3 := congrArg Uint64 (Option.some.inj d1)
  rw [Uint64_bytes64, Uint64_bytes64, Nat.mod_mod, Nat.mod_mod] at h3
  exact h3.symm

theorem eq_of_getD_eq (a b : List Nat) (n : Nat) (ha : a.length = n) (hb : b.length = n)
    (h : ∀ i, i < n → a.getD i 0 = b.getD i 0) : a = b := by
  apply List.ext_getElem?
  intro i
  by_cases hi : i < n
  · have h1 := h i hi
    have ha2 : i < a.length := by omega
    have hb2 : i < b.length := by omega
    rw [List.getD_eq_getElem?_getD, List.getD_eq_getElem?_getD,
      List.getElem?_eq_getElem ha2, List.getElem?_eq_getElem hb2,
      Option.getD_some, Option.getD_some] at h1
    rw [List.getElem?_eq_getElem ha2, List.getElem?_eq_getElem hb2, h1]
  · have ha2 : a.length ≤ i := by omega
    have hb2 : b.length ≤ i := by omega
    rw [List.getElem?_eq_none ha2, List.getElem?_eq_none hb2]

theorem outputAfter_first_block_injective (E : MagmaCore) (N1 N2 : Nat) (p dst : List Nat)
    (hd : dst.length = 8)
    (h : outputAfter E N1 p dst 8 = outputAfter E N2 p dst 8) :
    keystreamBlock E N1 0 = keystreamBlock E N2 0 := by
  apply eq_of_getD_eq _ _ 8 (keystreamBlock_length _ _ _) (keystreamBlock_length _ _ _)
  intro i hi
  have h1 := congrArg (fun l => l.getD i 0) h
  simp only at h1
  rw [outputAfter_getD E N1 p dst 8 i hi (by omega),
    outputAfter_getD E N2 p dst 8 i hi (by omega)] at h1
  have h2 := Nat.xor_right_inj.1 h1
  have e1 : i / 8 = 0 := by omega
  have e2 : i % 8 = i := by omega
  simp only [keystreamByte, e1, e2] at h2
  exact h2

/-- C16: for every 32-byte key and every two different 8-byte nonces, the processors that
`NewMGM` builds produce different first keystream blocks, and the same 8-byte plaintext is
encrypted to different ciphertexts under the two nonces. -/
theorem keystream_differs_across_nonces (key n1 n2 : List Nat) (hk : key.length = 32)
    (h1 : IsBlock n1) (h2 : IsBlock n2) (hne : n1 ≠ n2) :
    ∃ m1 m2, NewMGM key n1 = some (Except.ok m1) ∧ NewMGM key n2 = some (Except.ok m2) ∧
      ∀ p dst, p.length = 8 → dst.length = 8 →
        ∃ r1 r2, processBlocks m1 dst p = some r1 ∧ processBlocks m2 dst p = some r2 ∧
          r1.1.buffer ≠ r2.1.buffer ∧ r1.2 ≠ r2.2 := by
  obtain ⟨core1, c1, hc1, he1, hm1⟩ := NewMGM_ok key n1 hk h1.1
  obtain ⟨core2, c2, hc2, he2, hm2⟩ := NewMGM_ok key n2 hk h2.1
  have hcore : core2 = core1 := by
    rw [hc1] at hc2
    exact (Except.ok.inj hc2).symm
  subst hcore
  have hlen1 : c1.length = 8 := EncryptBlock_length core2 _ _ c1 (by simp) he1
  have hlen2 : c2.length = 8 := EncryptBlock_length core2 _ _ c2 (by simp) he2
  have hks : keystreamBlock core2 (Uint64 n1) 0 ≠ keystreamBlock core2 (Uint64 n2) 0 := by
    intro heq
    have h3 := keystreamBlock_injective core2 _ _ 0 heq
    have b1 := Uint64_lt n1 h1.1 h1.2
    have b2 := Uint64_lt n2 h2.1 h2.2
    have h4 : Uint64 n1 = Uint64 n2 := by omega
    apply hne
    rw [← bytes64_Uint64 n1 h1, ← bytes64_Uint64 n2 h2, h4]
  refine ⟨_, _, hm1, hm2, ?_⟩
  intro p dst hp hd
  refine ⟨_, _, processBlocks_eq _ dst p h1.1 hlen1, processBlocks_eq _ dst p h2.1 hlen2,
    ?_, ?_⟩
  · simp only [hp, stateAfter]
    exact hks
  · simp only [hp]
    intro heq
    exact hks (outputAfter_first_block_injective core2 _ _ p dst hd heq)

theorem keystream_differs_across_nonces_witness :
    ∃ m1 m2,
      NewMGM (List.range 32) [0, 0, 0, 0, 0, 0, 0, 0] = some (Except.ok m1) ∧
      NewMGM (List.range 32) [255, 255, 255, 255, 255, 255, 255, 255] = some (Except.ok m2) ∧
      ∀ p dst, p.length = 8 → dst.length = 8 →
        ∃ r1 r2, processBlocks m1 dst p = some r1 ∧ processBlocks m2 dst p = some r2 ∧
          r1.1.buffer ≠ r2.1.buffer ∧ r1.2 ≠ r2.2 :=
  keystream_differs_across_nonces (List.range 32) [0, 0, 0, 0, 0, 0, 0, 0]
    [255, 255, 255, 255, 255, 255, 255, 255] (by decide) (by decide) (by decide) (by decide)

/-! ## Key diversification -/

theorem truncate_eq_take (s : List Nat) (n : Nat) :
    (if s.length > n then s.take n else s) = s.take n := by
  split
  · rfl
  · exact (List.take_of_length_le (by omega)).symm

theorem DeriveKey_eq (Key : KeyFunc) (salt masterKey label context : List Nat) :
    DeriveKey Key (Except.ok salt) masterKey label context
      = some (Key masterKey (diversification label context) 10000 32) := by
  simp only [DeriveKey, LabelMaxSize, ContextMaxSize, truncate_eq_take, diversification,
    Iterations, KeySize]

theorem sampleKey_length : KeyLength sampleKey := by
  intro password salt iter keyLen
  simp [sampleKey]

/-- C14, amended: for every master key, label and context, the key returned by `DeriveKey`
has `KeySize = 32` bytes; its length equals the length of `masterKey` exactly when
`masterKey` is 32 bytes long. -/
theorem DeriveKey_length_masterKey (Key : KeyFunc) (hK : KeyLength Key)
    (salt masterKey label context : List Nat) :
    ∃ k, DeriveKey Key (Except.ok salt) masterKey label context = some k ∧
      k.length = KeySize ∧ (k.length = masterKey.length ↔ masterKey.length = 32) := by
  refine ⟨_, DeriveKey_eq Key salt masterKey label context, hK _ _ _ _, ?_⟩
  rw [hK]
  exact eq_comm

theorem DeriveKey_length_masterKey_witness :
    ∃ k, DeriveKey sampleKey (Except.ok (List.replicate 16 9)) (List.replicate 32 0)
        testLabel testContext = some k ∧
      k.length = KeySize ∧
      (k.length = (List.replicate 32 0).length ↔ (List.replicate 32 0).length = 32) :=
  DeriveKey_length_masterKey sampleKey sampleKey_length (List.replicate 16 9)
    (List.replicate 32 0) testLabel testContext

/-- C14 as stated fails: for a master key of one byte the returned key has 32 bytes, for
every key function with the contract of `pbkdf2.Key`. -/
theorem DeriveKey_length_masterKey_counterexample :
    (∀ (Key : KeyFunc), KeyLength Key → ∀ (salt label context : List Nat),
      ∃ k, DeriveKey Key (Except.ok salt) [7] label context = some k ∧ k.length = 32 ∧
        k.length ≠ [7].length) ∧
    (DeriveKey sampleKey (Except.ok []) [7] [] []).map List.length = some 32 ∧
    ¬ (∀ (Key : KeyFunc), KeyLength Key → ∀ (salt masterKey label context k : List Nat),
        DeriveKey Key (Except.ok salt) masterKey label context = some k →
        k.length = masterKey.length) := by
  have h1 : ∀ (Key : KeyFunc), KeyLength Key → ∀ (salt label context : List Nat),
      ∃ k, DeriveKey Key (Except.ok salt) [7] label context = some k ∧ k.length = 32 ∧
        k.length ≠ [7].length := by
    intro Key hK salt label context
    refine ⟨_, DeriveKey_eq Key salt [7] label context, hK _ _ _ _, ?_⟩
    rw [hK]
    decide
  refine ⟨h1, ?_, ?_⟩
  · rw [DeriveKey_eq, Option.map_some', sampleKey_length]
  · intro h
    obtain ⟨k, hk, _, hne⟩ := h1 sampleKey sampleKey_length [] [] []
    exact hne (h sampleKey sampleKey_length [] [7] [] [] k hk)

/-- C15: for every master key of any length, label and context, `DeriveKey` returns a key
of exactly 32 bytes, given that `pbkdf2.Key` returns `keyLen` bytes; the only call that
returns no key is the one where `rand.Read` fails, which panics. -/
theorem DeriveKey_returns_32_bytes (Key : KeyFunc) (hK : KeyLength Key)
    (masterKey label context : List Nat) :
    (∀ salt, ∃ k, DeriveKey Key (Except.ok salt) masterKey label context = some k ∧
      k.length = 32) ∧
    (∀ e, DeriveKey Key (Except.error e) masterKey label context = none) := by
  refine ⟨fun salt => ⟨_, DeriveKey_eq Key salt masterKey label context, hK _ _ _ _⟩, ?_⟩
  intro e
  rfl

theorem DeriveKey_returns_32_bytes_witness :
    (∀ salt, ∃ k, DeriveKey sampleKey (Except.ok salt) [1, 2, 3] testLabel testContext
        = some k ∧ k.length = 32) ∧
    (∀ e, DeriveKey sampleKey (Except.error e) [1, 2, 3] testLabel testContext = none) :=
  DeriveKey_returns_32_bytes sampleKey sampleKey_length [1, 2, 3] testLabel testContext

/-! ## Wiping the key and the nonce -/

theorem zeroize_fold (b : List Nat) (n : Nat) (hn : n ≤ b.length) :
    (List.range n).foldl (fun b i => b.set i 0) b = List.replicate n 0 ++ b.drop n := by
  induction n with
  | zero => rfl
  | succ n ih =>
    have hlt : n < b.length := by omega
    rw [List.range_succ, List.foldl_append, ih (by omega)]
    simp only [List.foldl_cons, List.foldl_nil]
    rw [List.set_append_right _ _ (by simp), List.length_replicate, Nat.sub_self,
      List.drop_eq_getElem_cons hlt, List.set_cons_zero, List.replicate_succ',
      List.append_assoc]
    rfl

theorem zeroize_eq (b : List Nat) : zeroize b = List.replicate b.length 0 := by
  unfold zeroize
  rw [zeroize_fold b b.length (le_refl _), List.drop_length, List.append_nil]

theorem encryptFileMenu_paths (key nonce : List Nat) :
    (∀ e r, NewMGM key nonce = some (Except.error e) →
      encryptFileMenu key nonce r = some (key, nonce)) ∧
    (∀ m e, NewMGM key nonce = some (Except.ok m) →
      encryptFileMenu key nonce (Except.error e) = some (key, nonce)) ∧
    (∀ m, NewMGM key nonce = some (Except.ok m) →
      encryptFileMenu key nonce (Except.ok ())
        = some (List.replicate key.length 0, List.replicate nonce.length 0)) := by
  refine ⟨?_, ?_, ?_⟩
  · intro e r h
    simp only [encryptFileMenu, h]
  · intro m e h
    simp only [encryptFileMenu, h]
  · intro m h
    simp only [encryptFileMenu, h, zeroize_eq]

theorem decryptFileMenu_paths (key nonce : List Nat) :
    (∀ e r, NewMGM key nonce = some (Except.error e) →
      decryptFileMenu key nonce r = some (key, nonce)) ∧
    (∀ m e, NewMGM key nonce = some (Except.ok m) →
      decryptFileMenu key nonce (Except.error e) = some (key, nonce)) ∧
    (∀ m, NewMGM key nonce = some (Except.ok m) →
      decryptFileMenu key nonce (Except.ok ())
        = some (List.replicate key.length 0, List.replicate nonce.length 0)) := by
  refine ⟨?_, ?_, ?_⟩
  · intro e r h
    simp only [decryptFileMenu, h]
  · intro m e h
    simp only [decryptFileMenu, h]
  · intro m h
    simp only [decryptFileMenu, h, zeroize_eq]

/-- C18 on the code: with a 31-byte key `NewMGM` reports an error and both callers return
with the key and the nonce as they were; with a valid key and nonce and an error from
`EncryptFile` or `DecryptFile` they return with both as they were; only the path on which
every call succeeds wipes the two buffers. -/
theorem menu_error_paths_keep_secrets :
    encryptFileMenu (List.replicate 31 1) (List.replicate 8 2) (Except.ok ())
      = some (List.replicate 31 1, List.replicate 8 2) ∧
    decryptFileMenu (List.replicate 31 1) (List.replicate 8 2) (Except.ok ())
      = some (List.replicate 31 1, List.replicate 8 2) ∧
    encryptFileMenu (List.range 32) (List.replicate 8 2) (Except.error "error creating file")
      = some (List.range 32, List.replicate 8 2) ∧
    decryptFileMenu (List.range 32) (List.replicate 8 2) (Except.error "error opening file")
      = some (List.range 32, List.replicate 8 2) ∧
    encryptFileMenu (List.range 32) (List.replicate 8 2) (Except.ok ())
      = some (List.replicate 32 0, List.replicate 8 0) ∧
    decryptFileMenu (List.range 32) (List.replicate 8 2) (Except.ok ())
      = some (List.replicate 32 0, List.replicate 8 0) := by
  have hbad : NewMGM (List.replicate 31 1) (List.replicate 8 2)
      = some (Except.error "invalid key length") := by
    simp [NewMGM, NewMagmaCore, BlockSize, KeySize]
  obtain ⟨_, _, _, _, hok⟩ :=
    NewMGM_ok (List.range 32) (List.replicate 8 2) (by simp) (by simp)
  exact ⟨(encryptFileMenu_paths _ _).1 _ _ hbad, (decryptFileMenu_paths _ _).1 _ _ hbad,
    (encryptFileMenu_paths _ _).2.1 _ _ hok, (decryptFileMenu_paths _ _).2.1 _ _ hok,
    by simpa using (encryptFileMenu_paths _ _).2.2 _ hok,
    by simpa using (decryptFileMenu_paths _ _).2.2 _ hok⟩

end Magma
